import Mathlib

/-!
Shallow embedding of the WordSearch repository's puzzle construction engine
and word-allocation loop, together with proofs of the specification claims.

JS strings are modelled as `List Char`; the 15×15 mutable grid (whose cells
hold either the empty string or a single-character string) is modelled as a
function `Int → Int → Option Char` (`none` = the empty cell marker `''`).
`Math.random`-driven choices are modelled as explicit streams of trials.
-/

namespace WordSearch

abbrev Word := List Char
abbrev Grid := Int → Int → Option Char

/-- The constant `this.gridSize = 15` from the `WordSearchGenerator` constructor. -/
abbrev gridSize : Nat := 15

/-- The 5 direction vectors from the `WordSearchGenerator` constructor:
right, down, down-right diagonal, up, up-right diagonal. -/
def directions : List (Int × Int) := [(0, 1), (1, 0), (1, 1), (-1, 0), (-1, 1)]

/-- Models `createEmptyGrid()`: every cell holds the empty marker. -/
def createEmptyGrid : Grid := fun _ _ => none

/-- The bounds test `0 ≤ r < gridSize && 0 ≤ c < gridSize` from `canPlaceWord`. -/
def inBoundsI (r c : Int) : Bool :=
  decide (0 ≤ r) && decide (r < (gridSize : Int)) &&
  decide (0 ≤ c) && decide (c < (gridSize : Int))

/-- One assignment `grid[r][c] = ch`. -/
def setCell (g : Grid) (r c : Int) (ch : Char) : Grid :=
  fun r' c' => if r' = r ∧ c' = c then some ch else g r' c'

/-- The loop body of `canPlaceWord`, recursing along the word while stepping
the current cell by the direction vector. -/
def canPlaceAux (g : Grid) (dr dc : Int) : Int → Int → Word → Bool
  | _, _, [] => true
  | r, c, ch :: rest =>
      inBoundsI r c &&
      (match g r c with
       | none => true
       | some e => e == ch) &&
      canPlaceAux g dr dc (r + dr) (c + dc) rest

/-- Models `WordSearchGenerator.canPlaceWord(grid, word, row, col, direction)`. -/
def canPlaceWord (g : Grid) (w : Word) (row col : Int) (d : Int × Int) : Bool :=
  canPlaceAux g d.1 d.2 row col w

/-- The loop body of `placeWord`: write each letter and record its position. -/
def placeWordAux (dr dc : Int) : Grid → Int → Int → Word → Grid × List (Int × Int)
  | g, _, _, [] => (g, [])
  | g, r, c, ch :: rest =>
      let res := placeWordAux dr dc (setCell g r c ch) (r + dr) (c + dc) rest
      (res.1, (r, c) :: res.2)

/-- Models `WordSearchGenerator.placeWord(grid, word, row, col, direction)`:
returns the mutated grid and the ordered position list. -/
def placeWord (g : Grid) (w : Word) (row col : Int) (d : Int × Int) :
    Grid × List (Int × Int) :=
  placeWordAux d.1 d.2 g row col w

/-- One placement trial as performed at the call sites:
`canPlaceWord` followed by `placeWord` on success, no mutation otherwise. -/
def tryPlace (g : Grid) (w : Word) (row col : Int) (d : Int × Int) :
    Grid × Option (List (Int × Int)) :=
  if canPlaceWord g w row col d then
    let res := placeWord g w row col d
    (res.1, some res.2)
  else (g, none)

/-- One sample of the three `Math.random()` draws of a placement attempt:
`Math.floor(random*5)`, `Math.floor(random*15)`, `Math.floor(random*15)`. -/
structure Trial where
  dirIdx : Fin 5
  row : Fin gridSize
  col : Fin gridSize

/-- The lookup `this.directions[Math.floor(Math.random() * this.directions.length)]`. -/
def dirAt (i : Fin 5) : Int × Int := directions.get (Fin.cast (by decide) i)

/-- The inner attempt loop `for (attempt = 0; attempt < maxAttempts && !placed; ...)`:
`trials` is the stream of random draws, `k` the index of the next draw,
`fuel` the remaining attempts.  Returns the (possibly) mutated grid, the
positions on success, and the next unconsumed draw index. -/
def tryWord (trials : Nat → Trial) (w : Word) :
    Nat → Nat → Grid → Grid × Option (List (Int × Int)) × Nat
  | 0, k, g => (g, none, k)
  | fuel + 1, k, g =>
      let t := trials k
      let d := dirAt t.dirIdx
      if canPlaceWord g w (t.row.val : Int) (t.col.val : Int) d then
        let res := placeWord g w (t.row.val : Int) (t.col.val : Int) d
        (res.1, some res.2, k + 1)
      else tryWord trials w fuel (k + 1) g

/-- JS `String.prototype.trim` on our character-list model of strings. -/
def wsTrim (w : Word) : Word :=
  ((w.dropWhile Char.isWhitespace).reverse.dropWhile Char.isWhitespace).reverse

/-- Models `word.replace(/\s+/g, '').toUpperCase()`. -/
def normalizeGridWord (w : Word) : Word :=
  (w.filter (fun ch => !ch.isWhitespace)).map Char.toUpper

/-- One entry of `placedWords`: `{ word, gridWord, positions }`. -/
structure PlacedWord where
  word : Word
  gridWord : Word
  positions : List (Int × Int)
deriving DecidableEq

/-- The per-word loop of `WordSearchGenerator.generatePuzzle`: trim, normalize,
skip empty normalizations, then run the 100-attempt trial loop. -/
def placeWordsGen (trials : Nat → Trial) :
    List Word → Grid → List PlacedWord → Nat → Grid × List PlacedWord × Nat
  | [], g, acc, k => (g, acc, k)
  | w :: ws, g, acc, k =>
      let ow := wsTrim w
      let gw := normalizeGridWord ow
      if gw.isEmpty then placeWordsGen trials ws g acc k
      else
        match tryWord trials gw 100 k g with
        | (g', some ps, k') => placeWordsGen trials ws g' (acc ++ [⟨ow, gw, ps⟩]) k'
        | (g', none, k') => placeWordsGen trials ws g' acc k'

/-- The constant `letters = 'ABCDEFGHIJKLMNOPQRSTUVWXYZ'`. -/
def letters : Word := "ABCDEFGHIJKLMNOPQRSTUVWXYZ".data

/-- The lookup `letters[Math.floor(Math.random() * letters.length)]`. -/
def letterAt (i : Fin 26) : Char := letters.get (Fin.cast (by decide) i)

/-- The fill loop: every still-empty in-bounds cell receives a random letter. -/
def fillGrid (fill : Int → Int → Fin 26) (g : Grid) : Grid :=
  fun r c => if inBoundsI r c && (g r c).isNone then some (letterAt (fill r c)) else g r c

/-- Models `WordSearchGenerator.generatePuzzle(words)` with explicit random streams. -/
def generatePuzzle (trials : Nat → Trial) (fill : Int → Int → Fin 26)
    (words : List Word) : Grid × List PlacedWord :=
  let res := placeWordsGen trials words createEmptyGrid [] 0
  (fillGrid fill res.1, res.2.1)

/-- The per-word loop of `createPuzzle` in `main.js`: no trimming or
whitespace-stripping, only `word.toUpperCase()`, and no empty-word skip. -/
def placeWordsCP (trials : Nat → Trial) :
    List Word → Grid → List PlacedWord → Nat → Grid × List PlacedWord × Nat
  | [], g, acc, k => (g, acc, k)
  | w :: ws, g, acc, k =>
      let gw := w.map Char.toUpper
      match tryWord trials gw 100 k g with
      | (g', some ps, k') => placeWordsCP trials ws g' (acc ++ [⟨w, gw, ps⟩]) k'
      | (g', none, k') => placeWordsCP trials ws g' acc k'

/-- Models `createPuzzle(words, topic)` from `main.js` (the topic does not affect the
grid or the placed words). -/
def createPuzzle (trials : Nat → Trial) (fill : Int → Int → Fin 26)
    (words : List Word) : Grid × List PlacedWord :=
  let res := placeWordsCP trials words createEmptyGrid [] 0
  (fillGrid fill res.1, res.2.1)

/-! ### The `generate-word-list` handler (word allocator) -/

/-- JS `str.split(sep)` for a single-character separator. -/
def splitOnChar (sep : Char) : Word → List Word
  | [] => [[]]
  | c :: cs =>
      let r := splitOnChar sep cs
      if c = sep then [] :: r
      else
        match r with
        | [] => [[c]]
        | x :: xs => (c :: x) :: xs

/-- JS `str.toLowerCase()` on the character-list model. -/
def jsLower (w : Word) : Word := w.map Char.toLower

/-- Handler lines 58–60: `response.trim().split('\n').find(l => l.includes(','))`
with fallback to the trimmed response, then split on commas, trim each token
and keep the non-empty ones. -/
def parseResponse (resp : Word) : List Word :=
  let t := wsTrim resp
  let line :=
    match (splitOnChar '\n' t).find? (fun l => l.contains ',') with
    | some l => l
    | none => t
  ((splitOnChar ',' line).map wsTrim).filter (fun w => decide (0 < w.length))

/-- Models `[...new Set(xs)]`: first-occurrence-order deduplication. -/
def setDedup (seen : List Word) : List Word → List Word
  | [] => []
  | x :: xs => if seen.contains x then setDedup seen xs else x :: setDedup (x :: seen) xs

/-- Handler lines 60–67: parse the response, drop words already in `allWords`
(case-insensitively), lowercase and deduplicate, and truncate to
`wordsPerPuzzle` when longer. -/
def attemptWords (allWords : List Word) (wordsPerPuzzle : Nat) (resp : Word) : List Word :=
  let pw1 := (parseResponse resp).filter (fun w => !(allWords.contains (jsLower w)))
  let pw2 := setDedup [] (pw1.map jsLower)
  if pw2.length > wordsPerPuzzle then pw2.take wordsPerPuzzle else pw2

/-- Decimal rendering used by the template-literal diagnostics. -/
def natChars (n : Nat) : Word := (Nat.repr n).data

/-- The diagnostic `Attempt ${attempt}: Expected ${wordsPerPuzzle} unique words, got ${n}. Retrying...`. -/
def diagMsg (attempt required got : Nat) : Word :=
  "Attempt ".data ++ natChars attempt ++ ": Expected ".data ++ natChars required ++
    " unique words, got ".data ++ natChars got ++ ". Retrying...".data

/-- The failure message `Failed to generate puzzle #${i+1} after 10 attempts. Last error: ${lastError}`. -/
def failMsg (i : Nat) (lastError : Word) : Word :=
  "Failed to generate puzzle #".data ++ natChars (i + 1) ++
    " after 10 attempts. Last error: ".data ++ lastError

/-- The attempt loop `while (attempt < 10 && puzzleWords.length !== wordsPerPuzzle)`,
with `fuel = 10 - attempt`.  `source attempt` models the awaited ollama call of
that attempt (`.error` = a thrown transport error, caught and recorded).
Returns the final `puzzleWords`, `lastError`, and the attempt counter. -/
def allocLoop (source : Nat → Except Word Word) (allWords : List Word) (required : Nat) :
    Nat → Nat → List Word → Word → List Word × Word × Nat
  | 0, attempt, pws, le => (pws, le, attempt)
  | fuel + 1, attempt, pws, le =>
      if pws.length = required then (pws, le, attempt)
      else
        match source attempt with
        | .error e => allocLoop source allWords required fuel (attempt + 1) pws e
        | .ok resp =>
            let pw := attemptWords allWords required resp
            let le' := if pw.length ≠ required then diagMsg (attempt + 1) required pw.length else le
            allocLoop source allWords required fuel (attempt + 1) pw le'

/-- One iteration of the outer puzzle loop (handler lines 22–77): run the
attempt loop; if the exact count was not reached the whole batch fails with
the `Failed to generate puzzle #…` message, otherwise the words are accepted. -/
def runPuzzle (source : Nat → Except Word Word) (allWords : List Word) (required : Nat)
    (i : Nat) : Except Word (List Word) :=
  let res := allocLoop source allWords required 10 0 [] []
  if res.1.length ≠ required then .error (failMsg i res.2.1) else .ok res.1

/-- JS `arr.join(',')`. -/
def joinComma : List Word → Word
  | [] => []
  | [w] => w
  | w :: ws => w ++ ',' :: joinComma ws

/-- The outer loop `for (let i = 0; i < numPuzzles; i++)` of the handler,
threading the `allWords` set (lowercased additions on success), the accepted
per-puzzle lists, and the `wordList` string with its `'|'` separator.  A
failed puzzle returns the error immediately. -/
def batchLoop (source : Nat → Nat → Except Word Word) (required : Nat) :
    Nat → Nat → List Word → List (List Word) → Word → Except Word (List (List Word) × Word)
  | 0, _, _, acc, wl => .ok (acc, wl)
  | n + 1, i, allWords, acc, wl =>
      match runPuzzle (source i) allWords required i with
      | .error e => .error e
      | .ok pws =>
          batchLoop source required n (i + 1) (allWords ++ pws.map jsLower)
            (acc ++ [pws]) (wl ++ (if 0 < i then ['|'] else []) ++ joinComma pws)

/-- The `generate-word-list` IPC handler: per-puzzle accepted word lists and
the accumulated `wordList` string on success. -/
def generateWordList (source : Nat → Nat → Except Word Word) (numPuzzles required : Nat) :
    Except Word (List (List Word) × Word) :=
  batchLoop source required numPuzzles 0 [] [] []

/-! ### The `create-puzzles` handler in `main.js` -/

/-- The word filter of `create-puzzles`: reject tokens with an internal space,
then require `/^[a-zA-Z]+$/` and length between 3 and 15. -/
def cpValid (w : Word) : Bool :=
  if w.contains ' ' then false
  else (!w.isEmpty && w.all Char.isAlpha) && decide (3 ≤ w.length) && decide (w.length ≤ 15)

/-- Word extraction in `create-puzzles` (`main.js` lines 91–100): first comma
line (or whole trimmed response), split, trim, validate, deduplicate, and
`slice(0, 15)`. -/
def cpWords (resp : Word) : List Word :=
  let t := wsTrim resp
  let line :=
    match (splitOnChar '\n' t).find? (fun l => l.contains ',') with
    | some l => l
    | none => t
  let allW := ((splitOnChar ',' line).map wsTrim).filter cpValid
  (setDedup [] allW).take 15

/-- The aggregate the `create-puzzles` handler returns (with `success: true`). -/
structure CPResult where
  puzzles : List ((Grid × List PlacedWord) × Word)
  successCount : Nat
  skipCount : Nat

/-- The per-subtheme loop of `create-puzzles` (`main.js` lines 61–117):
a thrown source call or a word list shorter than 10 skips the topic;
otherwise `createPuzzle` is invoked and its result appended in topic order. -/
def createPuzzlesLoop (source : Nat → Except Word Word) (trials : Nat → Nat → Trial)
    (fill : Nat → Int → Int → Fin 26) : List Word → Nat → CPResult
  | [], _ => ⟨[], 0, 0⟩
  | st :: sts, i =>
      let rest := createPuzzlesLoop source trials fill sts (i + 1)
      match source i with
      | .error _ => ⟨rest.puzzles, rest.successCount, rest.skipCount + 1⟩
      | .ok resp =>
          let ws := cpWords resp
          if 10 ≤ ws.length then
            ⟨(createPuzzle (trials i) (fill i) ws, st) :: rest.puzzles,
              rest.successCount + 1, rest.skipCount⟩
          else ⟨rest.puzzles, rest.successCount, rest.skipCount + 1⟩

/-- The `create-puzzles` handler: `none` models the early
`success: false` return for an empty sub-theme list; every other run ends in
the unconditional `success: true` return. -/
def createPuzzlesHandler (source : Nat → Except Word Word) (trials : Nat → Nat → Trial)
    (fill : Nat → Int → Int → Fin 26) (subthemes : List Word) : Option CPResult :=
  if subthemes.isEmpty then none
  else some (createPuzzlesLoop source trials fill subthemes 0)

/-! ### Grid placer lemmas -/

/-- The straight path of cells a word occupies from `(r, c)` along `(dr, dc)`. -/
def pathList (r c dr dc : Int) (n : Nat) : List (Int × Int) :=
  (List.range n).map fun i : Nat => (r + (i : Int) * dr, c + (i : Int) * dc)

theorem pathList_length (r c dr dc : Int) (n : Nat) : (pathList r c dr dc n).length = n := by
  unfold pathList
  rw [List.length_map, List.length_range]

theorem setCell_same (g : Grid) (r c : Int) (ch : Char) : setCell g r c ch r c = some ch := by
  simp [setCell]

theorem setCell_other (g : Grid) (r c : Int) (ch : Char) {r' c' : Int}
    (h : ¬(r' = r ∧ c' = c)) : setCell g r c ch r' c' = g r' c' := by
  simp only [setCell, if_neg h]

theorem canPlaceAux_iff (g : Grid) (dr dc : Int) (w : Word) : ∀ r c : Int,
    canPlaceAux g dr dc r c w = true ↔
      ∀ i (h : i < w.length),
        inBoundsI (r + i * dr) (c + i * dc) = true ∧
        (g (r + i * dr) (c + i * dc) = none ∨
          g (r + i * dr) (c + i * dc) = some (w.get ⟨i, h⟩)) := by
  induction w with
  | nil => intro r c; simp [canPlaceAux]
  | cons ch rest ih =>
      intro r c
      simp only [canPlaceAux, Bool.and_eq_true]
      constructor
      · rintro ⟨⟨hb, hc⟩, hrest⟩ i hi
        rcases i with _ | i
        · have er : r + ((0 : Nat) : Int) * dr = r := by push_cast; ring
          have ec : c + ((0 : Nat) : Int) * dc = c := by push_cast; ring
          rw [er, ec]
          refine ⟨hb, ?_⟩
          rcases hg : g r c with _ | e
          · exact Or.inl rfl
          · rw [hg] at hc
            have hce : e = ch := by simpa using hc
            rw [hce]
            exact Or.inr rfl
        · have := (ih (r + dr) (c + dc)).mp hrest i (by simpa using hi)
          have e1 : r + dr + (i : Int) * dr = r + ((i + 1 : Nat) : Int) * dr := by
            push_cast; ring
          have e2 : c + dc + (i : Int) * dc = c + ((i + 1 : Nat) : Int) * dc := by
            push_cast; ring
          rw [e1, e2] at this
          exact ⟨this.1, by simpa using this.2⟩
      · intro H
        have h0 := H 0 (by simp)
        have er : r + ((0 : Nat) : Int) * dr = r := by push_cast; ring
        have ec : c + ((0 : Nat) : Int) * dc = c := by push_cast; ring
        rw [er, ec] at h0
        refine ⟨⟨h0.1, ?_⟩, ?_⟩
        · rcases h0.2 with hg | hg
          · simp [hg]
          · have : g r c = some ch := by simpa using hg
            simp [this]
        · rw [ih (r + dr) (c + dc)]
          intro i hi
          have := H (i + 1) (by simpa using Nat.succ_lt_succ hi)
          have e1 : r + dr + (i : Int) * dr = r + ((i + 1 : Nat) : Int) * dr := by
            push_cast; ring
          have e2 : c + dc + (i : Int) * dc = c + ((i + 1 : Nat) : Int) * dc := by
            push_cast; ring
          rw [e1, e2]
          exact ⟨this.1, by simpa using this.2⟩

theorem placeWordAux_positions (dr dc : Int) (w : Word) : ∀ g r c,
    (placeWordAux dr dc g r c w).2 = pathList r c dr dc w.length := by
  induction w with
  | nil => intro g r c; simp [placeWordAux, pathList]
  | cons ch rest ih =>
      intro g r c
      simp only [placeWordAux, List.length_cons]
      rw [ih]
      unfold pathList
      rw [List.range_succ_eq_map, List.map_cons, List.map_map]
      refine congrArg₂ List.cons (by simp) ?_
      refine List.map_congr_left ?_
      intro i _
      simp only [Function.comp, Prod.mk.injEq]
      constructor <;> (push_cast; ring)

theorem placeWordAux_off (dr dc : Int) (w : Word) : ∀ g r c r' c',
    (∀ i : Nat, i < w.length → ¬(r' = r + i * dr ∧ c' = c + i * dc)) →
    (placeWordAux dr dc g r c w).1 r' c' = g r' c' := by
  induction w with
  | nil => intro g r c r' c' _; rfl
  | cons ch rest ih =>
      intro g r c r' c' H
      simp only [placeWordAux]
      rw [ih (setCell g r c ch) (r + dr) (c + dc) r' c' ?_]
      · refine setCell_other g r c ch ?_
        have := H 0 (by simp)
        simpa using this
      · intro i hi hcon
        refine H (i + 1) (by simpa using Nat.succ_lt_succ hi) ?_
        constructor
        · rw [hcon.1]; push_cast; ring
        · rw [hcon.2]; push_cast; ring

theorem placeWordAux_preserve (dr dc : Int) (w : Word) : ∀ g r c r' c' (x : Char),
    (∀ i (h : i < w.length), r' = r + i * dr → c' = c + i * dc → w.get ⟨i, h⟩ = x) →
    g r' c' = some x →
    (placeWordAux dr dc g r c w).1 r' c' = some x := by
  induction w with
  | nil => intro g r c r' c' x _ hg; exact hg
  | cons ch rest ih =>
      intro g r c r' c' x H hg
      simp only [placeWordAux]
      refine ih (setCell g r c ch) (r + dr) (c + dc) r' c' x ?_ ?_
      · intro i hi hr hc
        refine H (i + 1) (by simpa using Nat.succ_lt_succ hi) ?_ ?_
        · rw [hr]; push_cast; ring
        · rw [hc]; push_cast; ring
      · by_cases hrc : r' = r ∧ c' = c
        · have hx : ch = x := by
            have := H 0 (by simp) (by rw [hrc.1]; push_cast; ring)
              (by rw [hrc.2]; push_cast; ring)
            simpa using this
          rw [hrc.1, hrc.2, setCell_same, hx]
        · rw [setCell_other g r c ch hrc]
          exact hg

theorem placeWordAux_path (dr dc : Int) (hd : ¬(dr = 0 ∧ dc = 0)) (w : Word) :
    ∀ g r c i (h : i < w.length),
      (placeWordAux dr dc g r c w).1 (r + i * dr) (c + i * dc) = some (w.get ⟨i, h⟩) := by
  induction w with
  | nil => intro g r c i h; exact absurd h (by simp)
  | cons ch rest ih =>
      intro g r c i h
      simp only [placeWordAux]
      rcases i with _ | i
      · have er : r + ((0 : Nat) : Int) * dr = r := by push_cast; ring
        have ec : c + ((0 : Nat) : Int) * dc = c := by push_cast; ring
        rw [er, ec]
        rw [placeWordAux_off dr dc rest (setCell g r c ch) (r + dr) (c + dc) r c ?_]
        · exact setCell_same g r c ch
        · intro j hj hcon
          have h1 : dr * ((j : Int) + 1) = 0 := by linarith [hcon.1]
          have h2 : dc * ((j : Int) + 1) = 0 := by linarith [hcon.2]
          have hj1 : ((j : Int) + 1) ≠ 0 := by positivity
          exact hd ⟨by simpa [hj1] using mul_eq_zero.mp h1,
            by simpa [hj1] using mul_eq_zero.mp h2⟩
      · have e1 : r + ((i + 1 : Nat) : Int) * dr = (r + dr) + (i : Int) * dr := by
          push_cast; ring
        have e2 : c + ((i + 1 : Nat) : Int) * dc = (c + dc) + (i : Int) * dc := by
          push_cast; ring
        rw [e1, e2]
        have := ih (setCell g r c ch) (r + dr) (c + dc) i (by simpa using h)
        simpa using this

theorem placeWord_preserves_occupied (g : Grid) (w : Word) (row col : Int) (d : Int × Int)
    (hcan : canPlaceWord g w row col d = true) {r' c' : Int} {x : Char}
    (hg : g r' c' = some x) : (placeWord g w row col d).1 r' c' = some x := by
  refine placeWordAux_preserve d.1 d.2 w g row col r' c' x ?_ hg
  intro i h hr hc
  have hmem := (canPlaceAux_iff g d.1 d.2 w row col).mp hcan i h
  rcases hmem.2 with h1 | h1
  · rw [hr, hc] at hg; rw [hg] at h1; cases h1
  · rw [hr, hc] at hg; rw [hg] at h1
    exact (Option.some_inj.mp h1).symm

/-! ### Fill-loop and direction lemmas -/

theorem fillGrid_some (fill : Int → Int → Fin 26) (g : Grid) {r c : Int} {x : Char}
    (h : g r c = some x) : fillGrid fill g r c = some x := by
  simp [fillGrid, h]

theorem fillGrid_isSome (fill : Int → Int → Fin 26) (g : Grid) {r c : Int}
    (hb : inBoundsI r c = true) : (fillGrid fill g r c).isSome = true := by
  rcases hg : g r c with _ | x
  · simp [fillGrid, hb, hg]
  · simp [fillGrid, hg]

theorem dirAt_mem : ∀ i : Fin 5, dirAt i ∈ directions := by decide

theorem mem_directions_elim {d : Int × Int} (hd : d ∈ directions) :
    d = (0, 1) ∨ d = (1, 0) ∨ d = (1, 1) ∨ d = (-1, 0) ∨ d = (-1, 1) := by
  simpa [directions] using hd

theorem dir_ne_zero {d : Int × Int} (hd : d ∈ directions) : ¬(d.1 = 0 ∧ d.2 = 0) := by
  rcases mem_directions_elim hd with rfl | rfl | rfl | rfl | rfl <;> decide

/-! ### Attempt-loop (`tryWord`) characterization -/

/-- The trial drawn at index `k` succeeds on `g` for `w`. -/
def trialOk (trials : Nat → Trial) (g : Grid) (w : Word) (k : Nat) : Bool :=
  canPlaceWord g w ((trials k).row.val : Int) ((trials k).col.val : Int)
    (dirAt (trials k).dirIdx)

/-- The grid and positions produced by accepting the trial at index `k`. -/
def trialPlace (trials : Nat → Trial) (g : Grid) (w : Word) (k : Nat) :
    Grid × List (Int × Int) :=
  placeWord g w ((trials k).row.val : Int) ((trials k).col.val : Int)
    (dirAt (trials k).dirIdx)

theorem tryWord_none (trials : Nat → Trial) (w : Word) : ∀ fuel k g,
    (tryWord trials w fuel k g).2.1 = none →
    tryWord trials w fuel k g = (g, none, k + fuel) ∧
    ∀ j, j < fuel → trialOk trials g w (k + j) = false := by
  intro fuel
  induction fuel with
  | zero => intro k g _; exact ⟨rfl, fun j hj => absurd hj (by simp)⟩
  | succ fuel ih =>
      intro k g hres
      rcases hok : trialOk trials g w k with _ | _
      · have hstep : tryWord trials w (fuel + 1) k g = tryWord trials w fuel (k + 1) g := by
          simp only [tryWord]
          rw [if_neg (by simpa [trialOk] using hok)]
        rw [hstep] at hres ⊢
        obtain ⟨heq, hall⟩ := ih (k + 1) g hres
        refine ⟨by rw [heq, show k + 1 + fuel = k + (fuel + 1) from by omega], ?_⟩
        intro j hj
        rcases j with _ | j
        · simpa using hok
        · have := hall j (by omega)
          have e : k + 1 + j = k + (j + 1) := by omega
          rwa [e] at this
      · exfalso
        have hstep : tryWord trials w (fuel + 1) k g =
            ((trialPlace trials g w k).1, some (trialPlace trials g w k).2, k + 1) := by
          simp only [tryWord]
          rw [if_pos (by simpa [trialOk] using hok)]
          rfl
        rw [hstep] at hres
        simp at hres

theorem tryWord_some (trials : Nat → Trial) (w : Word) : ∀ fuel k g g' ps k',
    tryWord trials w fuel k g = (g', some ps, k') →
    ∃ j, j < fuel ∧ k' = k + j + 1 ∧
      (∀ j', j' < j → trialOk trials g w (k + j') = false) ∧
      trialOk trials g w (k + j) = true ∧
      (g', ps) = trialPlace trials g w (k + j) := by
  intro fuel
  induction fuel with
  | zero => intro k g g' ps k' h; exact absurd h (by simp [tryWord])
  | succ fuel ih =>
      intro k g g' ps k' h
      rcases hok : trialOk trials g w k with _ | _
      · have hstep : tryWord trials w (fuel + 1) k g = tryWord trials w fuel (k + 1) g := by
          simp only [tryWord]
          rw [if_neg (by simpa [trialOk] using hok)]
        rw [hstep] at h
        obtain ⟨j, hj, hk', hfail, hok', hplace⟩ := ih (k + 1) g g' ps k' h
        refine ⟨j + 1, by omega, by omega, ?_, ?_, ?_⟩
        · intro j' hj'
          rcases j' with _ | j'
          · simpa using hok
          · have := hfail j' (by omega)
            have e : k + 1 + j' = k + (j' + 1) := by omega
            rwa [e] at this
        · have e : k + 1 + j = k + (j + 1) := by omega
          rwa [e] at hok'
        · have e : k + 1 + j = k + (j + 1) := by omega
          rwa [e] at hplace
      · have hstep : tryWord trials w (fuel + 1) k g =
            ((trialPlace trials g w k).1, some (trialPlace trials g w k).2, k + 1) := by
          simp only [tryWord]
          rw [if_pos (by simpa [trialOk] using hok)]
          rfl
        rw [hstep] at h
        refine ⟨0, by omega, ?_, ?_, ?_, ?_⟩
        · have := congrArg (fun t => t.2.2) h; simpa using this.symm
        · intro j' hj'; exact absurd hj' (by simp)
        · simpa using hok
        · have h1 := congrArg (fun t => t.1) h
          have h2 := congrArg (fun t => t.2.1) h
          simp only at h1 h2
          rw [Nat.add_zero]
          exact Prod.ext h1.symm (by simpa using h2.symm)

/-! ### The placed-word invariant -/

/-- Internal well-formedness of one `placedWords` entry: its positions are the
straight path of some anchor and direction, and the grid carries its letters. -/
def PWgood (g : Grid) (pw : PlacedWord) : Prop :=
  ∃ r c d, d ∈ directions ∧
    pw.positions = pathList r c d.1 d.2 pw.gridWord.length ∧
    ∀ i (h : i < pw.gridWord.length),
      inBoundsI (r + (i : Int) * d.1) (c + (i : Int) * d.2) = true ∧
      g (r + (i : Int) * d.1) (c + (i : Int) * d.2) = some (pw.gridWord.get ⟨i, h⟩)

theorem PWgood_mono {g g' : Grid} (hmono : ∀ r c x, g r c = some x → g' r c = some x)
    {pw : PlacedWord} (h : PWgood g pw) : PWgood g' pw := by
  obtain ⟨r, c, d, hd, hpos, hcell⟩ := h
  exact ⟨r, c, d, hd, hpos, fun i hi => ⟨(hcell i hi).1, hmono _ _ _ (hcell i hi).2⟩⟩

theorem trialPlace_PWgood (trials : Nat → Trial) (g : Grid) (gw : Word) (k : Nat)
    (hok : trialOk trials g gw k = true) (ow : Word) :
    PWgood (trialPlace trials g gw k).1 ⟨ow, gw, (trialPlace trials g gw k).2⟩ := by
  refine ⟨((trials k).row.val : Int), ((trials k).col.val : Int), dirAt (trials k).dirIdx,
    dirAt_mem _, ?_, ?_⟩
  · exact placeWordAux_positions _ _ gw g _ _
  · intro i hi
    have hcan : canPlaceWord g gw ((trials k).row.val : Int) ((trials k).col.val : Int)
        (dirAt (trials k).dirIdx) = true := hok
    refine ⟨((canPlaceAux_iff g _ _ gw _ _).mp hcan i hi).1, ?_⟩
    exact placeWordAux_path _ _ (dir_ne_zero (dirAt_mem (trials k).dirIdx)) gw g _ _ i hi

theorem trialPlace_mono (trials : Nat → Trial) (g : Grid) (gw : Word) (k : Nat)
    (hok : trialOk trials g gw k = true) :
    ∀ r c x, g r c = some x → (trialPlace trials g gw k).1 r c = some x :=
  fun _ _ _ h => placeWord_preserves_occupied g gw _ _ _ hok h

theorem tryWord_mono (trials : Nat → Trial) (w : Word) (fuel k : Nat) (g : Grid) :
    ∀ r c x, g r c = some x → (tryWord trials w fuel k g).1 r c = some x := by
  intro r c x h
  rcases htw : tryWord trials w fuel k g with ⟨g', res, k'⟩
  rcases res with _ | ps
  · have hn := (tryWord_none trials w fuel k g (by rw [htw])).1
    have hg : g' = g := congrArg (fun t => t.1) (htw.symm.trans hn)
    simpa [hg] using h
  · obtain ⟨j, _, _, _, hok, hplace⟩ := tryWord_some trials w fuel k g g' ps k' htw
    have hg : g' = (trialPlace trials g w (k + j)).1 := congrArg Prod.fst hplace
    simp only
    rw [hg]
    exact trialPlace_mono trials g w (k + j) hok r c x h

theorem placeWordsGen_inv (trials : Nat → Trial) (ws : List Word) : ∀ g acc k,
    (∀ pw ∈ acc, PWgood g pw) →
    ∀ pw ∈ (placeWordsGen trials ws g acc k).2.1,
      PWgood (placeWordsGen trials ws g acc k).1 pw := by
  induction ws with
  | nil => intro g acc k hacc pw hpw; exact hacc pw hpw
  | cons w ws ih =>
      intro g acc k hacc
      by_cases hemp : (normalizeGridWord (wsTrim w)).isEmpty = true
      · have hstep : placeWordsGen trials (w :: ws) g acc k = placeWordsGen trials ws g acc k := by
          simp only [placeWordsGen]
          rw [if_pos hemp]
        rw [hstep]
        exact ih g acc k hacc
      · rcases htw : tryWord trials (normalizeGridWord (wsTrim w)) 100 k g with ⟨g', res, k'⟩
        rcases res with _ | ps
        · have hstep : placeWordsGen trials (w :: ws) g acc k =
              placeWordsGen trials ws g' acc k' := by
            simp only [placeWordsGen]
            rw [if_neg hemp, htw]
          rw [hstep]
          have hn := (tryWord_none trials _ 100 k g (by rw [htw])).1
          have hg : g' = g := congrArg (fun t => t.1) (htw.symm.trans hn)
          subst hg
          exact ih g' acc k' hacc
        · have hstep : placeWordsGen trials (w :: ws) g acc k =
              placeWordsGen trials ws g'
                (acc ++ [⟨wsTrim w, normalizeGridWord (wsTrim w), ps⟩]) k' := by
            simp only [placeWordsGen]
            rw [if_neg hemp, htw]
          rw [hstep]
          obtain ⟨j, _, _, _, hok, hplace⟩ :=
            tryWord_some trials (normalizeGridWord (wsTrim w)) 100 k g g' ps k' htw
          have hg : g' = (trialPlace trials g (normalizeGridWord (wsTrim w)) (k + j)).1 :=
            congrArg Prod.fst hplace
          have hps : ps = (trialPlace trials g (normalizeGridWord (wsTrim w)) (k + j)).2 :=
            congrArg Prod.snd hplace
          apply ih
          intro pw hpw
          rcases List.mem_append.mp hpw with hmem | hmem
          · refine PWgood_mono ?_ (hacc pw hmem)
            rw [hg]
            exact trialPlace_mono trials g _ (k + j) hok
          · have hpw' : pw = ⟨wsTrim w, normalizeGridWord (wsTrim w), ps⟩ := by
              simpa using hmem
            rw [hpw', hps, hg]
            exact trialPlace_PWgood trials g _ (k + j) hok (wsTrim w)

theorem placeWordsCP_inv (trials : Nat → Trial) (ws : List Word) : ∀ g acc k,
    (∀ pw ∈ acc, PWgood g pw) →
    ∀ pw ∈ (placeWordsCP trials ws g acc k).2.1,
      PWgood (placeWordsCP trials ws g acc k).1 pw := by
  induction ws with
  | nil => intro g acc k hacc pw hpw; exact hacc pw hpw
  | cons w ws ih =>
      intro g acc k hacc
      rcases htw : tryWord trials (w.map Char.toUpper) 100 k g with ⟨g', res, k'⟩
      rcases res with _ | ps
      · have hstep : placeWordsCP trials (w :: ws) g acc k =
            placeWordsCP trials ws g' acc k' := by
          simp only [placeWordsCP]
          rw [htw]
        rw [hstep]
        have hn := (tryWord_none trials _ 100 k g (by rw [htw])).1
        have hg : g' = g := congrArg (fun t => t.1) (htw.symm.trans hn)
        subst hg
        exact ih g' acc k' hacc
      · have hstep : placeWordsCP trials (w :: ws) g acc k =
            placeWordsCP trials ws g' (acc ++ [⟨w, w.map Char.toUpper, ps⟩]) k' := by
          simp only [placeWordsCP]
          rw [htw]
        rw [hstep]
        obtain ⟨j, _, _, _, hok, hplace⟩ :=
          tryWord_some trials (w.map Char.toUpper) 100 k g g' ps k' htw
        have hg : g' = (trialPlace trials g (w.map Char.toUpper) (k + j)).1 :=
          congrArg Prod.fst hplace
        have hps : ps = (trialPlace trials g (w.map Char.toUpper) (k + j)).2 :=
          congrArg Prod.snd hplace
        apply ih
        intro pw hpw
        rcases List.mem_append.mp hpw with hmem | hmem
        · refine PWgood_mono ?_ (hacc pw hmem)
          rw [hg]
          exact trialPlace_mono trials g _ (k + j) hok
        · have hpw' : pw = ⟨w, w.map Char.toUpper, ps⟩ := by
            simpa using hmem
          rw [hpw', hps, hg]
          exact trialPlace_PWgood trials g _ (k + j) hok w

theorem generatePuzzle_PWgood (trials : Nat → Trial) (fill : Int → Int → Fin 26)
    (words : List Word) :
    ∀ pw ∈ (generatePuzzle trials fill words).2, PWgood (generatePuzzle trials fill words).1 pw := by
  intro pw hpw
  have hbase := placeWordsGen_inv trials words createEmptyGrid [] 0 (by simp) pw hpw
  exact PWgood_mono (fun r c x h => fillGrid_some fill _ h) hbase

theorem createPuzzle_PWgood (trials : Nat → Trial) (fill : Int → Int → Fin 26)
    (words : List Word) :
    ∀ pw ∈ (createPuzzle trials fill words).2, PWgood (createPuzzle trials fill words).1 pw := by
  intro pw hpw
  have hbase := placeWordsCP_inv trials words createEmptyGrid [] 0 (by simp) pw hpw
  exact PWgood_mono (fun r c x h => fillGrid_some fill _ h) hbase

theorem pathList_get (r c dr dc : Int) (n i : Nat) (h : i < (pathList r c dr dc n).length) :
    (pathList r c dr dc n).get ⟨i, h⟩ = (r + (i : Int) * dr, c + (i : Int) * dc) := by
  simp [pathList, List.get_eq_getElem]

/-- The claim-facing invariant for one `placedWords` entry: in-bounds positions,
one position per letter, consecutive positions step by a single direction
vector from the 5-element direction set, and the grid carries the word. -/
def PlacedWordOK (g : Grid) (pw : PlacedWord) : Prop :=
  (∀ p ∈ pw.positions, inBoundsI p.1 p.2 = true) ∧
  pw.positions.length = pw.gridWord.length ∧
  (∃ d ∈ directions, ∀ i (h : i + 1 < pw.positions.length),
      (pw.positions.get ⟨i + 1, h⟩).1 = (pw.positions.get ⟨i, Nat.lt_of_succ_lt h⟩).1 + d.1 ∧
      (pw.positions.get ⟨i + 1, h⟩).2 = (pw.positions.get ⟨i, Nat.lt_of_succ_lt h⟩).2 + d.2) ∧
  (∀ i (h1 : i < pw.positions.length) (h2 : i < pw.gridWord.length),
      g (pw.positions.get ⟨i, h1⟩).1 (pw.positions.get ⟨i, h1⟩).2 =
        some (pw.gridWord.get ⟨i, h2⟩))

theorem PWgood_implies_OK {g : Grid} {pw : PlacedWord} (h : PWgood g pw) :
    PlacedWordOK g pw := by
  obtain ⟨r, c, d, hd, hpos, hcell⟩ := h
  have hlen : pw.positions.length = pw.gridWord.length := by
    rw [hpos, pathList_length]
  refine ⟨?_, hlen, ⟨d, hd, ?_⟩, ?_⟩
  · intro p hp
    rw [hpos] at hp
    obtain ⟨⟨i, hi⟩, hpi⟩ := List.mem_iff_get.mp hp
    rw [pathList_get] at hpi
    rw [← hpi]
    have hi' : i < pw.gridWord.length := by
      rw [pathList_length] at hi; exact hi
    exact (hcell i hi').1
  · intro i h
    have h1 : i + 1 < pw.gridWord.length := by rw [← hlen]; exact h
    have h0 : i < pw.gridWord.length := Nat.lt_of_succ_lt h1
    have e1 : pw.positions.get ⟨i + 1, h⟩ =
        (r + ((i + 1 : Nat) : Int) * d.1, c + ((i + 1 : Nat) : Int) * d.2) := by
      rw [List.get_of_eq hpos]
      exact pathList_get r c d.1 d.2 pw.gridWord.length (i + 1) _
    have e0 : pw.positions.get ⟨i, Nat.lt_of_succ_lt h⟩ =
        (r + (i : Int) * d.1, c + (i : Int) * d.2) := by
      rw [List.get_of_eq hpos]
      exact pathList_get r c d.1 d.2 pw.gridWord.length i _
    rw [e1, e0]
    constructor <;> (simp only; push_cast; ring)
  · intro i h1 h2
    have e0 : pw.positions.get ⟨i, h1⟩ = (r + (i : Int) * d.1, c + (i : Int) * d.2) := by
      rw [List.get_of_eq hpos]
      exact pathList_get r c d.1 d.2 pw.gridWord.length i _
    rw [e0]
    exact (hcell i h2).2

/-- C1: every `PlacedWord` produced by `generatePuzzle` (and by `createPuzzle`)
has all positions inside `[0, gridSize)²`, consecutive positions stepping by a
single one of the 5 direction vectors, and the final grid (after later words
and the random fill) carrying `gridWord[i]` at `positions[i]` for every `i`. -/
theorem placed_words_invariant (trials : Nat → Trial) (fill : Int → Int → Fin 26)
    (words : List Word) (pw : PlacedWord) :
    (pw ∈ (generatePuzzle trials fill words).2 →
      PlacedWordOK (generatePuzzle trials fill words).1 pw) ∧
    (pw ∈ (createPuzzle trials fill words).2 →
      PlacedWordOK (createPuzzle trials fill words).1 pw) :=
  ⟨fun h => PWgood_implies_OK (generatePuzzle_PWgood trials fill words pw h),
   fun h => PWgood_implies_OK (createPuzzle_PWgood trials fill words pw h)⟩

/-- Deterministic streams used to instantiate the randomized loops
in concrete evaluations. -/
def zeroTrials : Nat → Trial := fun _ => ⟨0, 0, 0⟩

/-- Constant fill stream: letter `'A'` for every empty cell. -/
def zeroFill : Int → Int → Fin 26 := fun _ _ => 0

/-- Witness for C1 at a concrete puzzle. -/
theorem placed_words_invariant_witness :
    (⟨"cat".data, "CAT".data, [(0, 0), (0, 1), (0, 2)]⟩ : PlacedWord) ∈
        (generatePuzzle zeroTrials zeroFill ["cat".data]).2 ∧
    PlacedWordOK (generatePuzzle zeroTrials zeroFill ["cat".data]).1
      ⟨"cat".data, "CAT".data, [(0, 0), (0, 1), (0, 2)]⟩ :=
  ⟨by decide,
   (placed_words_invariant zeroTrials zeroFill ["cat".data]
     ⟨"cat".data, "CAT".data, [(0, 0), (0, 1), (0, 2)]⟩).1 (by decide)⟩

/-- The full contract of one placement trial (`canPlaceWord` + `placeWord`):
acceptance is equivalent to in-bounds, collision-free cells; acceptance writes
exactly the word along the path and returns the ordered position list; and
rejection leaves the grid untouched. -/
def GridPlacerContract (g : Grid) (w : Word) (row col : Int) (d : Int × Int) : Prop :=
  (canPlaceWord g w row col d = true ↔
    ∀ i (h : i < w.length),
      inBoundsI (row + (i : Int) * d.1) (col + (i : Int) * d.2) = true ∧
      (g (row + (i : Int) * d.1) (col + (i : Int) * d.2) = none ∨
        g (row + (i : Int) * d.1) (col + (i : Int) * d.2) = some (w.get ⟨i, h⟩))) ∧
  (canPlaceWord g w row col d = true →
    (tryPlace g w row col d).2 = some (pathList row col d.1 d.2 w.length) ∧
    (∀ i (h : i < w.length),
      (tryPlace g w row col d).1 (row + (i : Int) * d.1) (col + (i : Int) * d.2) =
        some (w.get ⟨i, h⟩)) ∧
    (∀ r' c',
      (∀ i : Nat, i < w.length → ¬(r' = row + (i : Int) * d.1 ∧ c' = col + (i : Int) * d.2)) →
      (tryPlace g w row col d).1 r' c' = g r' c')) ∧
  (canPlaceWord g w row col d = false → tryPlace g w row col d = (g, none))

/-- C2: the placement trial accepts iff every path cell is in `[0, gridSize)`
bounds and every pre-filled path cell already holds the matching letter; on
acceptance it writes the word's letters and returns the ordered position list;
on rejection the grid is completely unchanged. -/
theorem grid_placer_contract (g : Grid) (w : Word) (row col : Int) (d : Int × Int)
    (hd : d ∈ directions) : GridPlacerContract g w row col d := by
  refine ⟨canPlaceAux_iff g d.1 d.2 w row col, ?_, ?_⟩
  · intro hcan
    have htp : tryPlace g w row col d =
        ((placeWord g w row col d).1, some (placeWord g w row col d).2) := by
      simp only [tryPlace, if_pos hcan]
    rw [htp]
    refine ⟨?_, ?_, ?_⟩
    · simp only [placeWord]
      rw [placeWordAux_positions]
    · intro i h
      exact placeWordAux_path d.1 d.2 (dir_ne_zero hd) w g row col i h
    · intro r' c' H
      exact placeWordAux_off d.1 d.2 w g row col r' c' H
  · intro hcan
    simp only [tryPlace, hcan]
    rfl

/-- Witness for C2 at a concrete trial. -/
theorem grid_placer_contract_witness :
    (0, 1) ∈ directions ∧ GridPlacerContract createEmptyGrid ("DOG".data) 3 4 (0, 1) :=
  ⟨by decide, grid_placer_contract createEmptyGrid ("DOG".data) 3 4 (0, 1) (by decide)⟩

theorem canPlace_long_false (g : Grid) (w : Word) (hw : gridSize < w.length) (t : Trial) :
    canPlaceWord g w (t.row.val : Int) (t.col.val : Int) (dirAt t.dirIdx) = false := by
  rcases hcan : canPlaceWord g w (t.row.val : Int) (t.col.val : Int) (dirAt t.dirIdx) with _ | _
  · rfl
  · exfalso
    have hb := ((canPlaceAux_iff g _ _ w _ _).mp hcan gridSize hw).1
    have hrow : t.row.val < 15 := t.row.isLt
    have hcol : t.col.val < 15 := t.col.isLt
    rcases mem_directions_elim (dirAt_mem t.dirIdx) with hd | hd | hd | hd | hd <;>
      rw [hd] at hb <;> simp [inBoundsI] at hb <;> omega

theorem tryWord_long_none (trials : Nat → Trial) (w : Word) (fuel k : Nat) (g : Grid)
    (hw : gridSize < w.length) : (tryWord trials w fuel k g).2.1 = none := by
  rcases htw : tryWord trials w fuel k g with ⟨g', res, k'⟩
  rcases res with _ | ps
  · rfl
  · exfalso
    obtain ⟨j, _, _, _, hok, _⟩ := tryWord_some trials w fuel k g g' ps k' htw
    rw [show trialOk trials g w (k + j) =
        canPlaceWord g w ((trials (k + j)).row.val : Int) ((trials (k + j)).col.val : Int)
          (dirAt (trials (k + j)).dirIdx) from rfl,
      canPlace_long_false g w hw (trials (k + j))] at hok
    cases hok

theorem placeWordsGen_len (trials : Nat → Trial) (ws : List Word) : ∀ g acc k,
    (∀ pw ∈ acc, pw.gridWord.length ≤ gridSize) →
    ∀ pw ∈ (placeWordsGen trials ws g acc k).2.1, pw.gridWord.length ≤ gridSize := by
  induction ws with
  | nil => intro g acc k hacc pw hpw; exact hacc pw hpw
  | cons w ws ih =>
      intro g acc k hacc
      by_cases hemp : (normalizeGridWord (wsTrim w)).isEmpty = true
      · have hstep : placeWordsGen trials (w :: ws) g acc k = placeWordsGen trials ws g acc k := by
          simp only [placeWordsGen]; rw [if_pos hemp]
        rw [hstep]; exact ih g acc k hacc
      · rcases htw : tryWord trials (normalizeGridWord (wsTrim w)) 100 k g with ⟨g', res, k'⟩
        rcases res with _ | ps
        · have hstep : placeWordsGen trials (w :: ws) g acc k =
              placeWordsGen trials ws g' acc k' := by
            simp only [placeWordsGen]; rw [if_neg hemp, htw]
          rw [hstep]; exact ih g' acc k' hacc
        · have hstep : placeWordsGen trials (w :: ws) g acc k =
              placeWordsGen trials ws g'
                (acc ++ [⟨wsTrim w, normalizeGridWord (wsTrim w), ps⟩]) k' := by
            simp only [placeWordsGen]; rw [if_neg hemp, htw]
          rw [hstep]
          apply ih
          intro pw hpw
          rcases List.mem_append.mp hpw with hmem | hmem
          · exact hacc pw hmem
          · have hpw' : pw = ⟨wsTrim w, normalizeGridWord (wsTrim w), ps⟩ := by simpa using hmem
            rw [hpw']
            by_contra hlong
            have := tryWord_long_none trials (normalizeGridWord (wsTrim w)) 100 k g
              (by simpa using Nat.lt_of_not_le hlong)
            rw [htw] at this
            cases this

theorem placeWordsCP_len (trials : Nat → Trial) (ws : List Word) : ∀ g acc k,
    (∀ pw ∈ acc, pw.gridWord.length ≤ gridSize) →
    ∀ pw ∈ (placeWordsCP trials ws g acc k).2.1, pw.gridWord.length ≤ gridSize := by
  induction ws with
  | nil => intro g acc k hacc pw hpw; exact hacc pw hpw
  | cons w ws ih =>
      intro g acc k hacc
      rcases htw : tryWord trials (w.map Char.toUpper) 100 k g with ⟨g', res, k'⟩
      rcases res with _ | ps
      · have hstep : placeWordsCP trials (w :: ws) g acc k =
            placeWordsCP trials ws g' acc k' := by
          simp only [placeWordsCP]; rw [htw]
        rw [hstep]; exact ih g' acc k' hacc
      · have hstep : placeWordsCP trials (w :: ws) g acc k =
            placeWordsCP trials ws g' (acc ++ [⟨w, w.map Char.toUpper, ps⟩]) k' := by
          simp only [placeWordsCP]; rw [htw]
        rw [hstep]
        apply ih
        intro pw hpw
        rcases List.mem_append.mp hpw with hmem | hmem
        · exact hacc pw hmem
        · have hpw' : pw = ⟨w, w.map Char.toUpper, ps⟩ := by simpa using hmem
          rw [hpw']
          by_contra hlong
          have := tryWord_long_none trials (w.map Char.toUpper) 100 k g
            (by simpa using Nat.lt_of_not_le hlong)
          rw [htw] at this
          cases this

theorem placeWordsGen_words_sublist (trials : Nat → Trial) (ws : List Word) : ∀ g acc k,
    ∃ L, (placeWordsGen trials ws g acc k).2.1 = acc ++ L ∧
      (L.map PlacedWord.word).Sublist (ws.map wsTrim) := by
  induction ws with
  | nil => intro g acc k; exact ⟨[], by simp [placeWordsGen], by simp⟩
  | cons w ws ih =>
      intro g acc k
      by_cases hemp : (normalizeGridWord (wsTrim w)).isEmpty = true
      · have hstep : placeWordsGen trials (w :: ws) g acc k = placeWordsGen trials ws g acc k := by
          simp only [placeWordsGen]; rw [if_pos hemp]
        rw [hstep]
        obtain ⟨L, hL, hsub⟩ := ih g acc k
        exact ⟨L, hL, by simpa using hsub.cons (wsTrim w)⟩
      · rcases htw : tryWord trials (normalizeGridWord (wsTrim w)) 100 k g with ⟨g', res, k'⟩
        rcases res with _ | ps
        · have hstep : placeWordsGen trials (w :: ws) g acc k =
              placeWordsGen trials ws g' acc k' := by
            simp only [placeWordsGen]; rw [if_neg hemp, htw]
          rw [hstep]
          obtain ⟨L, hL, hsub⟩ := ih g' acc k'
          exact ⟨L, hL, by simpa using hsub.cons (wsTrim w)⟩
        · have hstep : placeWordsGen trials (w :: ws) g acc k =
              placeWordsGen trials ws g'
                (acc ++ [⟨wsTrim w, normalizeGridWord (wsTrim w), ps⟩]) k' := by
            simp only [placeWordsGen]; rw [if_neg hemp, htw]
          rw [hstep]
          obtain ⟨L, hL, hsub⟩ := ih g' (acc ++ [⟨wsTrim w, normalizeGridWord (wsTrim w), ps⟩]) k'
          refine ⟨⟨wsTrim w, normalizeGridWord (wsTrim w), ps⟩ :: L, by simpa using hL, ?_⟩
          simpa using hsub.cons₂ (wsTrim w)

theorem placeWordsCP_words_sublist (trials : Nat → Trial) (ws : List Word) : ∀ g acc k,
    ∃ L, (placeWordsCP trials ws g acc k).2.1 = acc ++ L ∧
      (L.map PlacedWord.word).Sublist ws := by
  induction ws with
  | nil => intro g acc k; exact ⟨[], by simp [placeWordsCP], by simp⟩
  | cons w ws ih =>
      intro g acc k
      rcases htw : tryWord trials (w.map Char.toUpper) 100 k g with ⟨g', res, k'⟩
      rcases res with _ | ps
      · have hstep : placeWordsCP trials (w :: ws) g acc k =
            placeWordsCP trials ws g' acc k' := by
          simp only [placeWordsCP]; rw [htw]
        rw [hstep]
        obtain ⟨L, hL, hsub⟩ := ih g' acc k'
        exact ⟨L, hL, hsub.cons w⟩
      · have hstep : placeWordsCP trials (w :: ws) g acc k =
            placeWordsCP trials ws g' (acc ++ [⟨w, w.map Char.toUpper, ps⟩]) k' := by
          simp only [placeWordsCP]; rw [htw]
        rw [hstep]
        obtain ⟨L, hL, hsub⟩ := ih g' (acc ++ [⟨w, w.map Char.toUpper, ps⟩]) k'
        refine ⟨⟨w, w.map Char.toUpper, ps⟩ :: L, by simpa using hL, ?_⟩
        simpa using hsub.cons₂ w

/-- The characterization of the 100-attempt trial loop for one word: the draw
counter advances by at most 100; if every trial is rejected the word is dropped
with the grid unchanged; and a success uses the first accepted trial. -/
def PlacementLoopSpec (trials : Nat → Trial) (w : Word) (k : Nat) (g : Grid) : Prop :=
  (tryWord trials w 100 k g).2.2 ≤ k + 100 ∧
  ((tryWord trials w 100 k g).2.1 = none →
    tryWord trials w 100 k g = (g, none, k + 100) ∧
    ∀ j, j < 100 → trialOk trials g w (k + j) = false) ∧
  (∀ g' ps k', tryWord trials w 100 k g = (g', some ps, k') →
    ∃ j, j < 100 ∧ k' = k + j + 1 ∧
      (∀ j', j' < j → trialOk trials g w (k + j') = false) ∧
      trialOk trials g w (k + j) = true ∧ (g', ps) = trialPlace trials g w (k + j))

/-- C6: per word at most 100 random trials, first success wins, exhaustion
drops the word silently (grid untouched), `placedWords` is a subsequence of
the input list in input order, and a word whose normalization is longer than
`gridSize` is never placed. -/
theorem placement_loop_budget (trials : Nat → Trial) (fill : Int → Int → Fin 26)
    (words : List Word) :
    ((generatePuzzle trials fill words).2.map PlacedWord.word).Sublist (words.map wsTrim) ∧
    (∀ pw ∈ (generatePuzzle trials fill words).2, pw.gridWord.length ≤ gridSize) ∧
    ((createPuzzle trials fill words).2.map PlacedWord.word).Sublist words ∧
    (∀ pw ∈ (createPuzzle trials fill words).2, pw.gridWord.length ≤ gridSize) ∧
    (∀ w k g, PlacementLoopSpec trials w k g) := by
  refine ⟨?_, ?_, ?_, ?_, ?_⟩
  · show ((placeWordsGen trials words createEmptyGrid [] 0).2.1.map PlacedWord.word).Sublist _
    obtain ⟨L, hL, hsub⟩ := placeWordsGen_words_sublist trials words createEmptyGrid [] 0
    rw [hL]
    simpa using hsub
  · intro pw hpw
    exact placeWordsGen_len trials words createEmptyGrid [] 0 (by simp) pw hpw
  · show ((placeWordsCP trials words createEmptyGrid [] 0).2.1.map PlacedWord.word).Sublist _
    obtain ⟨L, hL, hsub⟩ := placeWordsCP_words_sublist trials words createEmptyGrid [] 0
    rw [hL]
    simpa using hsub
  · intro pw hpw
    exact placeWordsCP_len trials words createEmptyGrid [] 0 (by simp) pw hpw
  · intro w k g
    refine ⟨?_, ?_, ?_⟩
    · rcases hres : (tryWord trials w 100 k g).2.1 with _ | ps
      · rw [(tryWord_none trials w 100 k g hres).1]
      · rcases htw : tryWord trials w 100 k g with ⟨g', res, k'⟩
        rw [htw] at hres
        cases hres
        obtain ⟨j, hj, hk', _, _, _⟩ := tryWord_some trials w 100 k g g' _ k' htw
        simp only
        omega
    · exact tryWord_none trials w 100 k g
    · exact fun g' ps k' h => tryWord_some trials w 100 k g g' ps k' h

/-- Witness for C6 at a concrete puzzle. -/
theorem placement_loop_budget_witness :
    (⟨"cat".data, "CAT".data, [(0, 0), (0, 1), (0, 2)]⟩ : PlacedWord) ∈
        (generatePuzzle zeroTrials zeroFill ["cat".data]).2 ∧
    (⟨"cat".data, "CAT".data, [(0, 0), (0, 1), (0, 2)]⟩ : PlacedWord).gridWord.length ≤ gridSize :=
  ⟨by decide,
   (placement_loop_budget zeroTrials zeroFill ["cat".data]).2.1
     ⟨"cat".data, "CAT".data, [(0, 0), (0, 1), (0, 2)]⟩ (by decide)⟩

/-! ### Normalization (C8) -/

theorem filter_dropWhile_ws (l : List Char) :
    (l.dropWhile Char.isWhitespace).filter (fun ch => !ch.isWhitespace) =
      l.filter (fun ch => !ch.isWhitespace) := by
  induction l with
  | nil => rfl
  | cons h t ih =>
      by_cases hw : Char.isWhitespace h
      · rw [List.dropWhile_cons, if_pos hw, ih, List.filter_cons,
          if_neg (by simp [hw])]
      · rw [List.dropWhile_cons, if_neg hw]

theorem wsTrim_filter (w : Word) :
    (wsTrim w).filter (fun ch => !ch.isWhitespace) = w.filter (fun ch => !ch.isWhitespace) := by
  unfold wsTrim
  rw [List.filter_reverse, filter_dropWhile_ws, List.filter_reverse, List.reverse_reverse,
    filter_dropWhile_ws]

theorem normalizeGridWord_wsTrim (w : Word) :
    normalizeGridWord (wsTrim w) = normalizeGridWord w := by
  unfold normalizeGridWord
  rw [wsTrim_filter]

theorem wsTrim_sublist (w : Word) : (wsTrim w).Sublist w := by
  unfold wsTrim
  have h1 : (w.dropWhile Char.isWhitespace).Sublist w := List.dropWhile_sublist _
  have h2 : ((w.dropWhile Char.isWhitespace).reverse.dropWhile Char.isWhitespace).Sublist
      (w.dropWhile Char.isWhitespace).reverse := List.dropWhile_sublist _
  have h3 := h2.reverse
  rw [List.reverse_reverse] at h3
  exact h3.trans h1

theorem placeWordsGen_norm (trials : Nat → Trial) (ws : List Word) : ∀ g acc k,
    (∀ pw ∈ acc, pw.gridWord = normalizeGridWord pw.word ∧ pw.gridWord ≠ []) →
    ∀ pw ∈ (placeWordsGen trials ws g acc k).2.1,
      pw.gridWord = normalizeGridWord pw.word ∧ pw.gridWord ≠ [] := by
  induction ws with
  | nil => intro g acc k hacc pw hpw; exact hacc pw hpw
  | cons w ws ih =>
      intro g acc k hacc
      by_cases hemp : (normalizeGridWord (wsTrim w)).isEmpty = true
      · have hstep : placeWordsGen trials (w :: ws) g acc k = placeWordsGen trials ws g acc k := by
          simp only [placeWordsGen]; rw [if_pos hemp]
        rw [hstep]; exact ih g acc k hacc
      · rcases htw : tryWord trials (normalizeGridWord (wsTrim w)) 100 k g with ⟨g', res, k'⟩
        rcases res with _ | ps
        · have hstep : placeWordsGen trials (w :: ws) g acc k =
              placeWordsGen trials ws g' acc k' := by
            simp only [placeWordsGen]; rw [if_neg hemp, htw]
          rw [hstep]; exact ih g' acc k' hacc
        · have hstep : placeWordsGen trials (w :: ws) g acc k =
              placeWordsGen trials ws g'
                (acc ++ [⟨wsTrim w, normalizeGridWord (wsTrim w), ps⟩]) k' := by
            simp only [placeWordsGen]; rw [if_neg hemp, htw]
          rw [hstep]
          apply ih
          intro pw hpw
          rcases List.mem_append.mp hpw with hmem | hmem
          · exact hacc pw hmem
          · have hpw' : pw = ⟨wsTrim w, normalizeGridWord (wsTrim w), ps⟩ := by simpa using hmem
            rw [hpw']
            exact ⟨rfl, by simpa using hemp⟩

/-- C8 (amended): `generatePuzzle` normalizes each word by trimming, stripping
all internal whitespace and uppercasing (the trim being redundant for the grid
word), and a word with empty normalization is skipped; but the normalization
is *not* guaranteed to consist only of letters. -/
theorem normalization_spec (trials : Nat → Trial) (fill : Int → Int → Fin 26)
    (words : List Word) :
    (∀ w : Word, normalizeGridWord (wsTrim w) = normalizeGridWord w) ∧
    (∀ pw ∈ (generatePuzzle trials fill words).2,
      (∃ w0 ∈ words, pw.word = wsTrim w0) ∧
      pw.gridWord = normalizeGridWord pw.word ∧ pw.gridWord ≠ []) := by
  refine ⟨normalizeGridWord_wsTrim, ?_⟩
  intro pw hpw
  refine ⟨?_, ?_⟩
  · have hmem : pw.word ∈ (generatePuzzle trials fill words).2.map PlacedWord.word :=
      List.mem_map_of_mem PlacedWord.word hpw
    have hsub : ((generatePuzzle trials fill words).2.map PlacedWord.word).Sublist
        (words.map wsTrim) := by
      show ((placeWordsGen trials words createEmptyGrid [] 0).2.1.map PlacedWord.word).Sublist _
      obtain ⟨L, hL, hs⟩ := placeWordsGen_words_sublist trials words createEmptyGrid [] 0
      rw [hL]
      simpa using hs
    have : pw.word ∈ words.map wsTrim := hsub.subset hmem
    obtain ⟨w0, hw0, he⟩ := List.mem_map.mp this
    exact ⟨w0, hw0, he.symm⟩
  · exact placeWordsGen_norm trials words createEmptyGrid [] 0 (by simp) pw hpw

/-- Witness for the amended C8. -/
theorem normalization_spec_witness :
    (⟨"cat".data, "CAT".data, [(0, 0), (0, 1), (0, 2)]⟩ : PlacedWord) ∈
        (generatePuzzle zeroTrials zeroFill [" cat ".data]).2 ∧
    ((∃ w0 ∈ [" cat ".data], (⟨"cat".data, "CAT".data,
          [(0, 0), (0, 1), (0, 2)]⟩ : PlacedWord).word = wsTrim w0) ∧
      (⟨"cat".data, "CAT".data, [(0, 0), (0, 1), (0, 2)]⟩ : PlacedWord).gridWord =
        normalizeGridWord (⟨"cat".data, "CAT".data, [(0, 0), (0, 1), (0, 2)]⟩ : PlacedWord).word ∧
      (⟨"cat".data, "CAT".data, [(0, 0), (0, 1), (0, 2)]⟩ : PlacedWord).gridWord ≠ []) :=
  ⟨by decide,
   (normalization_spec zeroTrials zeroFill [" cat ".data]).2
     ⟨"cat".data, "CAT".data, [(0, 0), (0, 1), (0, 2)]⟩ (by decide)⟩

/-- Counterexample to C8 as stated: the input word `"42"` is normalized to the
grid word `"42"` and placed, yet `'4'` is not a letter. -/
theorem normalization_cex :
    ((generatePuzzle zeroTrials zeroFill ["42".data]).2.map PlacedWord.gridWord) =
        ["42".data] ∧
    '4'.isAlpha = false :=
  ⟨by decide, by decide⟩

/-! ### Character-case lemmas -/

theorem char_toNat_ofNat {n : Nat} (h : n.isValidChar) : (Char.ofNat n).toNat = n := by
  rw [Char.ofNat, dif_pos h]
  rfl

theorem char_eq_of_toNat {c d : Char} (h : c.toNat = d.toNat) : c = d := by
  have hc := Char.ofNat_toNat c
  have hd := Char.ofNat_toNat d
  rw [← hc, ← hd, h]

theorem toUpper_toNat (c : Char) :
    (Char.toUpper c).toNat =
      if 97 ≤ c.toNat ∧ c.toNat ≤ 122 then c.toNat - 32 else c.toNat := by
  show (if 97 ≤ c.toNat ∧ c.toNat ≤ 122 then Char.ofNat (c.toNat - 32) else c).toNat = _
  by_cases h : 97 ≤ c.toNat ∧ c.toNat ≤ 122
  · rw [if_pos h, if_pos h]
    have hv : (c.toNat - 32).isValidChar := Or.inl (by omega)
    exact char_toNat_ofNat hv
  · rw [if_neg h, if_neg h]

theorem toLower_toNat (c : Char) :
    (Char.toLower c).toNat =
      if 65 ≤ c.toNat ∧ c.toNat ≤ 90 then c.toNat + 32 else c.toNat := by
  show (if 65 ≤ c.toNat ∧ c.toNat ≤ 90 then Char.ofNat (c.toNat + 32) else c).toNat = _
  by_cases h : 65 ≤ c.toNat ∧ c.toNat ≤ 90
  · rw [if_pos h, if_pos h]
    have hv : (c.toNat + 32).isValidChar := Or.inl (by omega)
    exact char_toNat_ofNat hv
  · rw [if_neg h, if_neg h]

theorem toLower_toLower (c : Char) : Char.toLower (Char.toLower c) = Char.toLower c := by
  apply char_eq_of_toNat
  rw [toLower_toNat (Char.toLower c), toLower_toNat c]
  split_ifs <;> omega

theorem jsLower_jsLower (w : Word) : jsLower (jsLower w) = jsLower w := by
  unfold jsLower
  rw [List.map_map]
  exact List.map_congr_left fun c _ => toLower_toLower c

theorem toUpper_upper_of_alpha {c : Char}
    (h : (65 ≤ c.toNat ∧ c.toNat ≤ 90) ∨ (97 ≤ c.toNat ∧ c.toNat ≤ 122)) :
    65 ≤ (Char.toUpper c).toNat ∧ (Char.toUpper c).toNat ≤ 90 := by
  rw [toUpper_toNat]
  rcases h with h | h <;> split_ifs <;> omega

theorem toLower_fix_not_upper {c : Char} (h : Char.toLower c = c) :
    ¬(65 ≤ c.toNat ∧ c.toNat ≤ 90) := by
  intro hc
  have he := congrArg Char.toNat h
  rw [toLower_toNat, if_pos hc] at he
  omega

/-! ### Grid letter coverage (C9) -/

/-- The cell holds a single uppercase Latin letter. -/
def cellUpper (o : Option Char) : Bool :=
  match o with
  | some ch => decide (65 ≤ ch.toNat) && decide (ch.toNat ≤ 90)
  | none => false

/-- Every character of every input word is an ASCII Latin letter (`A`–`Z`,
`a`–`z`) or whitespace. -/
def UpperInput (words : List Word) : Prop :=
  ∀ w ∈ words, ∀ ch ∈ w,
    (65 ≤ ch.toNat ∧ ch.toNat ≤ 90) ∨ (97 ≤ ch.toNat ∧ ch.toNat ≤ 122) ∨
      ch.isWhitespace = true

theorem normalize_chars_upper {w : Word}
    (hw : ∀ ch ∈ w,
      (65 ≤ ch.toNat ∧ ch.toNat ≤ 90) ∨ (97 ≤ ch.toNat ∧ ch.toNat ≤ 122) ∨
        ch.isWhitespace = true) :
    ∀ ch ∈ normalizeGridWord (wsTrim w), 65 ≤ ch.toNat ∧ ch.toNat ≤ 90 := by
  intro ch hch
  unfold normalizeGridWord at hch
  obtain ⟨ch0, hch0, rfl⟩ := List.mem_map.mp hch
  have hmem := List.mem_filter.mp hch0
  have hch0w : ch0 ∈ w := (wsTrim_sublist w).subset hmem.1
  have hnws : ch0.isWhitespace = false := by simpa using hmem.2
  rcases hw ch0 hch0w with h | h | h
  · exact toUpper_upper_of_alpha (Or.inl h)
  · exact toUpper_upper_of_alpha (Or.inr h)
  · rw [h] at hnws; cases hnws

theorem placeWordAux_upper (dr dc : Int) (w : Word)
    (hw : ∀ ch ∈ w, 65 ≤ ch.toNat ∧ ch.toNat ≤ 90) : ∀ g r c,
    (∀ r' c', g r' c' = none ∨ cellUpper (g r' c') = true) →
    ∀ r' c', (placeWordAux dr dc g r c w).1 r' c' = none ∨
      cellUpper ((placeWordAux dr dc g r c w).1 r' c') = true := by
  induction w with
  | nil => intro g r c hg r' c'; exact hg r' c'
  | cons ch rest ih =>
      intro g r c hg r' c'
      simp only [placeWordAux]
      refine ih (fun a ha => hw a (List.mem_cons_of_mem ch ha)) (setCell g r c ch)
        (r + dr) (c + dc) ?_ r' c'
      intro r'' c''
      by_cases hrc : r'' = r ∧ c'' = c
      · right
        rw [hrc.1, hrc.2, setCell_same]
        have := hw ch (List.mem_cons_self ch rest)
        simp [cellUpper, this.1, this.2]
      · rw [setCell_other g r c ch hrc]
        exact hg r'' c''

theorem tryWord_upper (trials : Nat → Trial) (w : Word) (fuel k : Nat) (g : Grid)
    (hw : ∀ ch ∈ w, 65 ≤ ch.toNat ∧ ch.toNat ≤ 90)
    (hg : ∀ r c, g r c = none ∨ cellUpper (g r c) = true) :
    ∀ r c, (tryWord trials w fuel k g).1 r c = none ∨
      cellUpper ((tryWord trials w fuel k g).1 r c) = true := by
  intro r c
  rcases htw : tryWord trials w fuel k g with ⟨g', res, k'⟩
  rcases res with _ | ps
  · have hn := (tryWord_none trials w fuel k g (by rw [htw])).1
    have hgg : g' = g := congrArg (fun t => t.1) (htw.symm.trans hn)
    rw [hgg]
    exact hg r c
  · obtain ⟨j, _, _, _, _, hplace⟩ := tryWord_some trials w fuel k g g' ps k' htw
    have hgg : g' = (trialPlace trials g w (k + j)).1 := congrArg Prod.fst hplace
    rw [hgg]
    exact placeWordAux_upper _ _ w hw g _ _ hg r c

theorem placeWordsGen_upper (trials : Nat → Trial) (ws : List Word)
    (hws : UpperInput ws) : ∀ g acc k,
    (∀ r c, g r c = none ∨ cellUpper (g r c) = true) →
    ∀ r c, (placeWordsGen trials ws g acc k).1 r c = none ∨
      cellUpper ((placeWordsGen trials ws g acc k).1 r c) = true := by
  induction ws with
  | nil => intro g acc k hg r c; exact hg r c
  | cons w ws ih =>
      intro g acc k hg
      have hws' : UpperInput ws := fun w' hw' => hws w' (List.mem_cons_of_mem w hw')
      by_cases hemp : (normalizeGridWord (wsTrim w)).isEmpty = true
      · have hstep : placeWordsGen trials (w :: ws) g acc k = placeWordsGen trials ws g acc k := by
          simp only [placeWordsGen]; rw [if_pos hemp]
        rw [hstep]; exact ih hws' g acc k hg
      · rcases htw : tryWord trials (normalizeGridWord (wsTrim w)) 100 k g with ⟨g', res, k'⟩
        have hup := normalize_chars_upper (hws w (List.mem_cons_self w ws))
        have hg' : ∀ r c, g' r c = none ∨ cellUpper (g' r c) = true := by
          have := tryWord_upper trials (normalizeGridWord (wsTrim w)) 100 k g hup hg
          rw [htw] at this
          exact this
        rcases res with _ | ps
        · have hstep : placeWordsGen trials (w :: ws) g acc k =
              placeWordsGen trials ws g' acc k' := by
            simp only [placeWordsGen]; rw [if_neg hemp, htw]
          rw [hstep]; exact ih hws' g' acc k' hg'
        · have hstep : placeWordsGen trials (w :: ws) g acc k =
              placeWordsGen trials ws g'
                (acc ++ [⟨wsTrim w, normalizeGridWord (wsTrim w), ps⟩]) k' := by
            simp only [placeWordsGen]; rw [if_neg hemp, htw]
          rw [hstep]; exact ih hws' g' _ k' hg'

theorem inBoundsI_of_fin (r c : Fin gridSize) :
    inBoundsI (r.val : Int) (c.val : Int) = true := by
  have hr : r.val < 15 := r.isLt
  have hc : c.val < 15 := c.isLt
  simp only [inBoundsI, Bool.and_eq_true, decide_eq_true_eq]
  refine ⟨⟨⟨by positivity, ?_⟩, by positivity⟩, ?_⟩ <;> push_cast <;> omega

theorem letterAt_cellUpper : ∀ i : Fin 26, cellUpper (some (letterAt i)) = true := by decide

/-- C9 (amended): every cell of a `generatePuzzle` grid is non-empty, and —
provided every input character is an ASCII Latin letter or whitespace — every
cell holds exactly one uppercase Latin letter `A`–`Z` (fill cells are always
drawn from the 26-letter alphabet; placed cells carry the uppercased input). -/
theorem grid_fill_spec (trials : Nat → Trial) (fill : Int → Int → Fin 26)
    (words : List Word) :
    (∀ r c : Fin gridSize,
      ((generatePuzzle trials fill words).1 (r.val : Int) (c.val : Int)).isSome = true) ∧
    (UpperInput words →
      ∀ r c : Fin gridSize,
        cellUpper ((generatePuzzle trials fill words).1 (r.val : Int) (c.val : Int)) = true) := by
  constructor
  · intro r c
    exact fillGrid_isSome fill _ (inBoundsI_of_fin r c)
  · intro hin r c
    have hbase : ∀ r' c' : Int,
        (placeWordsGen trials words createEmptyGrid [] 0).1 r' c' = none ∨
        cellUpper ((placeWordsGen trials words createEmptyGrid [] 0).1 r' c') = true :=
      placeWordsGen_upper trials words hin createEmptyGrid [] 0
        (fun _ _ => Or.inl rfl)
    show cellUpper (fillGrid fill (placeWordsGen trials words createEmptyGrid [] 0).1
      (r.val : Int) (c.val : Int)) = true
    rcases hbase (r.val : Int) (c.val : Int) with hc | hc
    · simp only [fillGrid, hc, Option.isNone_none, Bool.and_true, inBoundsI_of_fin r c,
        if_true]
      exact letterAt_cellUpper _
    · rcases hsome : (placeWordsGen trials words createEmptyGrid [] 0).1 (r.val : Int)
          (c.val : Int) with _ | x
      · rw [hsome] at hc; simp [cellUpper] at hc
      · rw [fillGrid_some fill _ hsome]
        rwa [hsome] at hc

/-- Witness for the amended C9. -/
theorem grid_fill_spec_witness :
    UpperInput ["cat".data] ∧
    (∀ r c : Fin gridSize,
      cellUpper ((generatePuzzle zeroTrials zeroFill ["cat".data]).1
        (r.val : Int) (c.val : Int)) = true) :=
  ⟨by unfold UpperInput; decide,
   (grid_fill_spec zeroTrials zeroFill ["cat".data]).2 (by unfold UpperInput; decide)⟩

/-- Counterexample to C9 as stated: with input word `"9"` the produced grid
holds the non-letter `'9'` at `(0, 0)`. -/
theorem grid_fill_cex :
    (generatePuzzle zeroTrials zeroFill ["9".data]).1 0 0 = some '9' ∧
    cellUpper (some '9') = false :=
  ⟨by decide, by decide⟩

/-! ### Allocator lemmas -/

theorem bool_eq_of_iff {a b : Bool} (h : a = true ↔ b = true) : a = b := by
  cases a <;> cases b <;> simp_all

theorem word_contains_iff (l : List Word) (w : Word) : l.contains w = true ↔ w ∈ l := by
  induction l with
  | nil => simp
  | cons x xs ih =>
      simp only [List.contains_cons, Bool.or_eq_true, beq_iff_eq, List.mem_cons, ih]

theorem setDedup_subset (l : List Word) : ∀ seen w, w ∈ setDedup seen l → w ∈ l := by
  induction l with
  | nil => intro seen w hw; simp [setDedup] at hw
  | cons x xs ih =>
      intro seen w hw
      simp only [setDedup] at hw
      split at hw
      · exact List.mem_cons_of_mem x (ih seen w hw)
      · rcases List.mem_cons.mp hw with h | h
        · exact h ▸ List.mem_cons_self x xs
        · exact List.mem_cons_of_mem x (ih (x :: seen) w h)

theorem attemptWords_chars (A : List Word) (req : Nat) (resp : Word) :
    ∀ w ∈ attemptWords A req resp,
      ∃ t ∈ parseResponse resp, w = jsLower t ∧ A.contains (jsLower t) = false := by
  intro w hw
  simp only [attemptWords] at hw
  have hw2 : w ∈ setDedup []
      (((parseResponse resp).filter fun t => !(A.contains (jsLower t))).map jsLower) := by
    split at hw
    · exact List.take_subset _ _ hw
    · exact hw
  have hw3 := setDedup_subset _ [] w hw2
  obtain ⟨t, ht, rfl⟩ := List.mem_map.mp hw3
  have hmem := List.mem_filter.mp ht
  exact ⟨t, hmem.1, rfl, by simpa using hmem.2⟩

theorem allocLoop_done (source : Nat → Except Word Word) (A : List Word) (req : Nat)
    (fuel attempt : Nat) (pws : List Word) (le : Word) (h : pws.length = req) :
    allocLoop source A req fuel attempt pws le = (pws, le, attempt) := by
  cases fuel with
  | zero => rfl
  | succ fuel => simp [allocLoop, h]

theorem allocLoop_inv (source : Nat → Except Word Word) (A : List Word) (req : Nat)
    (P : List Word → Prop) (hstep : ∀ resp, P (attemptWords A req resp)) :
    ∀ fuel attempt pws le, P pws → P (allocLoop source A req fuel attempt pws le).1 := by
  intro fuel
  induction fuel with
  | zero => intro attempt pws le hP; exact hP
  | succ fuel ih =>
      intro attempt pws le hP
      simp only [allocLoop]
      split
      · exact hP
      · rcases hsrc : source attempt with e | resp
        · exact ih (attempt + 1) pws e hP
        · exact ih (attempt + 1) _ _ (hstep resp)

theorem runPuzzle_ok {source : Nat → Except Word Word} {A : List Word} {req i : Nat}
    {L : List Word} (h : runPuzzle source A req i = .ok L) :
    L.length = req ∧ (L = [] ∨ ∃ resp, L = attemptWords A req resp) := by
  simp only [runPuzzle] at h
  split at h
  · cases h
  · next hne =>
      have hL : L = (allocLoop source A req 10 0 [] []).1 := by
        injection h with h'
        exact h'.symm
      constructor
      · rw [hL]
        exact Decidable.not_not.mp (by simpa using hne)
      · rw [hL]
        exact allocLoop_inv source A req
          (fun pws => pws = [] ∨ ∃ resp, pws = attemptWords A req resp)
          (fun resp => Or.inr ⟨resp, rfl⟩) 10 0 [] [] (Or.inl rfl)

theorem runPuzzle_ok_facts {source : Nat → Except Word Word} {A : List Word} {req i : Nat}
    {L : List Word} (h : runPuzzle source A req i = .ok L) :
    L.length = req ∧ ∀ w ∈ L, jsLower w = w ∧ A.contains w = false := by
  obtain ⟨hlen, hform⟩ := runPuzzle_ok h
  refine ⟨hlen, ?_⟩
  rcases hform with rfl | ⟨resp, rfl⟩
  · intro w hw; cases hw
  · intro w hw
    obtain ⟨t, _, rfl, hcont⟩ := attemptWords_chars A req resp w hw
    exact ⟨jsLower_jsLower t, hcont⟩

theorem contains_append_false {A B : List Word} {w : Word}
    (h : (A ++ B).contains w = false) : A.contains w = false ∧ B.contains w = false := by
  constructor <;>
    · apply bool_eq_of_iff
      simp only [word_contains_iff] at h ⊢
      constructor
      · intro hm
        exfalso
        have : (A ++ B).contains w = true := by
          rw [word_contains_iff]
          simp [List.mem_append]
          tauto
        rw [h] at this
        cases this
      · intro hf
        cases hf

theorem batchLoop_spec (source : Nat → Nat → Except Word Word) (req : Nat) :
    ∀ n i A acc wl ls wlOut,
      batchLoop source req n i A acc wl = .ok (ls, wlOut) →
      ∃ new, ls = acc ++ new ∧
        (∀ L ∈ new, L.length = req ∧ ∀ w ∈ L, jsLower w = w ∧ A.contains w = false) ∧
        new.Pairwise (fun L1 L2 => ∀ w1 ∈ L1, ∀ w2 ∈ L2, w1 ≠ w2) := by
  intro n
  induction n with
  | zero =>
      intro i A acc wl ls wlOut h
      simp only [batchLoop] at h
      injection h with h'
      injection h' with h1 h2
      exact ⟨[], by simp [h1.symm], by simp, by simp⟩
  | succ n ih =>
      intro i A acc wl ls wlOut h
      simp only [batchLoop] at h
      rcases hrp : runPuzzle (source i) A req i with e | L0
      · rw [hrp] at h; cases h
      · rw [hrp] at h
        obtain ⟨new', hls, hfacts, hpw⟩ := ih (i + 1) (A ++ L0.map jsLower) (acc ++ [L0]) _ ls wlOut h
        obtain ⟨hlen0, hL0⟩ := runPuzzle_ok_facts hrp
        refine ⟨L0 :: new', by simpa using hls, ?_, ?_⟩
        · intro L hL
          rcases List.mem_cons.mp hL with rfl | hL
          · exact ⟨hlen0, hL0⟩
          · obtain ⟨hlen, hw⟩ := hfacts L hL
            exact ⟨hlen, fun w hwL =>
              ⟨(hw w hwL).1, (contains_append_false (hw w hwL).2).1⟩⟩
        · refine List.Pairwise.cons ?_ hpw
          intro L hL w1 hw1 w2 hw2 heq
          have h2 := ((hfacts L hL).2 w2 hw2).2
          have hw2m : (L0.map jsLower).contains w2 = false := (contains_append_false h2).2
          have hmem : w2 ∈ L0.map jsLower := by
            rw [← heq]
            have : jsLower w1 = w1 := (hL0 w1 hw1).1
            rw [← this]
            exact List.mem_map_of_mem jsLower hw1
          rw [(word_contains_iff _ _).mpr hmem] at hw2m
          cases hw2m

/-- C3: in any successful `generate-word-list` batch, no word appears
(case-insensitively) in more than one puzzle's accepted list, and every
accepted list has exactly the required length. -/
theorem allocator_uniqueness (source : Nat → Nat → Except Word Word)
    (numPuzzles required : Nat) (ls : List (List Word)) (wl : Word)
    (h : generateWordList source numPuzzles required = .ok (ls, wl)) :
    ls.Pairwise (fun L1 L2 => ∀ w1 ∈ L1, ∀ w2 ∈ L2, jsLower w1 ≠ jsLower w2) ∧
    ∀ L ∈ ls, L.length = required := by
  obtain ⟨new, hls, hfacts, hpw⟩ :=
    batchLoop_spec source required numPuzzles 0 [] [] [] ls wl h
  have hnew : ls = new := by simpa using hls
  subst hnew
  constructor
  · refine hpw.imp_of_mem ?_
    intro L1 L2 h1 h2 hne w1 hw1 w2 hw2
    rw [((hfacts L1 h1).2 w1 hw1).1, ((hfacts L2 h2).2 w2 hw2).1]
    exact hne w1 hw1 w2 hw2
  · exact fun L hL => (hfacts L hL).1

/-- Witness for C3. -/
def okSrc : Nat → Nat → Except Word Word :=
  fun i _ => .ok (if i = 0 then "apple, banana".data else "cherry, dog".data)

theorem allocator_uniqueness_witness :
    generateWordList okSrc 2 2 =
      .ok ([["apple".data, "banana".data], ["cherry".data, "dog".data]],
        "apple,banana|cherry,dog".data) ∧
    ([["apple".data, "banana".data], ["cherry".data, "dog".data]] :
        List (List Word)).Pairwise
      (fun L1 L2 => ∀ w1 ∈ L1, ∀ w2 ∈ L2, jsLower w1 ≠ jsLower w2) :=
  ⟨rfl,
   (allocator_uniqueness okSrc 2 2 [["apple".data, "banana".data],
     ["cherry".data, "dog".data]] "apple,banana|cherry,dog".data rfl).1⟩

theorem joinComma_chars (ws : List Word) : ∀ ch ∈ joinComma ws, ch = ',' ∨ ∃ w ∈ ws, ch ∈ w := by
  induction ws with
  | nil => simp [joinComma]
  | cons w ws ih =>
      rcases ws with _ | ⟨w', ws'⟩
      · intro ch hch
        right
        exact ⟨w, by simp, by simpa [joinComma] using hch⟩
      · intro ch hch
        rw [show joinComma (w :: w' :: ws') = w ++ ',' :: joinComma (w' :: ws') from rfl] at hch
        rcases List.mem_append.mp hch with h | h
        · right; exact ⟨w, by simp, h⟩
        · rcases List.mem_cons.mp h with h | h
          · left; exact h
          · rcases ih ch h with h' | ⟨w0, hw0, hchw0⟩
            · left; exact h'
            · right; exact ⟨w0, List.mem_cons_of_mem w hw0, hchw0⟩

theorem map_toLower_fix {w : Word} (h : jsLower w = w) :
    ∀ ch ∈ w, Char.toLower ch = ch := by
  induction w with
  | nil => intro ch hch; cases hch
  | cons c cs ih =>
      unfold jsLower at h
      rw [List.map_cons] at h
      injection h with h1 h2
      intro ch hch
      rcases List.mem_cons.mp hch with rfl | hch
      · exact h1
      · exact ih h2 ch hch

theorem batchLoop_wl (source : Nat → Nat → Except Word Word) (req : Nat) :
    ∀ n i A acc wl ls wlOut,
      (∀ ch ∈ wl, ¬(65 ≤ ch.toNat ∧ ch.toNat ≤ 90)) →
      batchLoop source req n i A acc wl = .ok (ls, wlOut) →
      ∀ ch ∈ wlOut, ¬(65 ≤ ch.toNat ∧ ch.toNat ≤ 90) := by
  intro n
  induction n with
  | zero =>
      intro i A acc wl ls wlOut hwl h
      simp only [batchLoop] at h
      injection h with h'
      injection h' with h1 h2
      rw [← h2]
      exact hwl
  | succ n ih =>
      intro i A acc wl ls wlOut hwl h
      simp only [batchLoop] at h
      rcases hrp : runPuzzle (source i) A req i with e | L0
      · rw [hrp] at h; cases h
      · rw [hrp] at h
        refine ih (i + 1) (A ++ L0.map jsLower) (acc ++ [L0]) _ ls wlOut ?_ h
        intro ch hch
        rcases List.mem_append.mp hch with hch | hch
        · rcases List.mem_append.mp hch with hch | hch
          · exact hwl ch hch
          · have hpipe : ch = '|' := by
              split at hch
              · simpa using hch
              · cases hch
            rw [hpipe]
            decide
        · rcases joinComma_chars L0 ch hch with rfl | ⟨w0, hw0, hchw⟩
          · decide
          · have hlf := ((runPuzzle_ok_facts hrp).2 w0 hw0).1
            exact toLower_fix_not_upper (map_toLower_fix hlf ch hchw)

/-- C10 (implicit): every word in the accepted per-puzzle lists of a successful
`generate-word-list` run is fully lowercase (the dedupe step lowercases every
token, discarding the source's casing), and the returned `wordList` string
contains no uppercase ASCII letter. -/
theorem allocator_lowercase (source : Nat → Nat → Except Word Word)
    (numPuzzles required : Nat) (ls : List (List Word)) (wl : Word)
    (h : generateWordList source numPuzzles required = .ok (ls, wl)) :
    (∀ L ∈ ls, ∀ w ∈ L, jsLower w = w) ∧
    (∀ ch ∈ wl, ¬(65 ≤ ch.toNat ∧ ch.toNat ≤ 90)) := by
  obtain ⟨new, hls, hfacts, _⟩ :=
    batchLoop_spec source required numPuzzles 0 [] [] [] ls wl h
  have hnew : ls = new := by simpa using hls
  refine ⟨?_, ?_⟩
  · rw [hnew]
    exact fun L hL w hw => ((hfacts L hL).2 w hw).1
  · exact batchLoop_wl source required numPuzzles 0 [] [] [] ls wl
      (by intro ch hch; cases hch) h

/-- Witness for C10. -/
theorem allocator_lowercase_witness :
    generateWordList okSrc 2 2 =
      .ok ([["apple".data, "banana".data], ["cherry".data, "dog".data]],
        "apple,banana|cherry,dog".data) ∧
    ∀ L ∈ ([["apple".data, "banana".data], ["cherry".data, "dog".data]] :
        List (List Word)), ∀ w ∈ L, jsLower w = w :=
  ⟨rfl,
   (allocator_lowercase okSrc 2 2 [["apple".data, "banana".data],
     ["cherry".data, "dog".data]] "apple,banana|cherry,dog".data rfl).1⟩

/-! ### Allocation exhaustion (C5) -/

theorem attemptWords_all_used (A : List Word) (req : Nat) (resp : Word)
    (H : ∀ t ∈ parseResponse resp, A.contains (jsLower t) = true) :
    attemptWords A req resp = [] := by
  unfold attemptWords
  have hf : (parseResponse resp).filter (fun w => !(A.contains (jsLower w))) = [] := by
    rw [List.filter_eq_nil_iff]
    intro t ht
    rw [H t ht]
    decide
  rw [hf]
  simp [setDedup]

theorem allocLoop_exhaust (source : Nat → Except Word Word) (A : List Word) (req : Nat)
    (hreq : req ≠ 0)
    (hsrc : ∀ a resp, source a = .ok resp → attemptWords A req resp = []) :
    ∀ fuel attempt le, ∃ le',
      allocLoop source A req fuel attempt [] le = ([], le', attempt + fuel) := by
  intro fuel
  induction fuel with
  | zero => intro attempt le; exact ⟨le, by simp [allocLoop]⟩
  | succ fuel ih =>
      intro attempt le
      simp only [allocLoop]
      rw [if_neg (by simpa using (Ne.symm hreq))]
      rcases hs : source attempt with e | resp
      · obtain ⟨le2, h2⟩ := ih (attempt + 1) e
        refine ⟨le2, ?_⟩
        show allocLoop source A req fuel (attempt + 1) [] e = ([], le2, attempt + (fuel + 1))
        rw [show attempt + (fuel + 1) = attempt + 1 + fuel from by omega]
        exact h2
      · have hat := hsrc attempt resp hs
        show ∃ le2, allocLoop source A req fuel (attempt + 1) (attemptWords A req resp)
            (if (attemptWords A req resp).length ≠ req then
              diagMsg (attempt + 1) req (attemptWords A req resp).length
            else le) = ([], le2, attempt + (fuel + 1))
        rw [hat]
        obtain ⟨le2, h2⟩ := ih (attempt + 1)
          (if ([] : List Word).length ≠ req then diagMsg (attempt + 1) req ([] : List Word).length
            else le)
        refine ⟨le2, ?_⟩
        rw [show attempt + (fuel + 1) = attempt + 1 + fuel from by omega]
        exact h2

/-- C5 (amended): when `requiredCount ≠ 0` and every successful source response
yields only already-used tokens (thrown calls count the same), the attempt loop
runs exactly 10 attempts and ends in the failure result carrying the last
diagnostic. -/
theorem allocation_exhaustion (source : Nat → Except Word Word) (A : List Word)
    (required i : Nat) (hreq : required ≠ 0)
    (H : ∀ a resp, source a = .ok resp →
      ∀ t ∈ parseResponse resp, A.contains (jsLower t) = true) :
    ∃ le, allocLoop source A required 10 0 [] [] = ([], le, 10) ∧
      runPuzzle source A required i = .error (failMsg i le) := by
  obtain ⟨le, hle⟩ := allocLoop_exhaust source A required hreq
    (fun a resp hs => attemptWords_all_used A required resp (H a resp hs)) 10 0 []
  rw [show (0 : Nat) + 10 = 10 from rfl] at hle
  refine ⟨le, hle, ?_⟩
  simp only [runPuzzle, hle]
  have hcond : (([] : List Word)).length ≠ required := fun h => hreq h.symm
  rw [if_pos hcond]

/-- A source whose every response is the already-used word `apple`. -/
def usedSrc : Nat → Except Word Word := fun _ => .ok "apple".data

/-- Witness for the amended C5. -/
theorem allocation_exhaustion_witness :
    ((1 : Nat) ≠ 0 ∧
      (∀ a resp, usedSrc a = .ok resp →
        ∀ t ∈ parseResponse resp, (["apple".data] : List Word).contains (jsLower t) = true)) ∧
    ∃ le, allocLoop usedSrc ["apple".data] 1 10 0 [] [] = ([], le, 10) ∧
      runPuzzle usedSrc ["apple".data] 1 0 = .error (failMsg 0 le) :=
  ⟨⟨by decide, by
      intro a resp h
      injection h with h2
      subst h2
      decide⟩,
   allocation_exhaustion usedSrc ["apple".data] 1 0 (by decide) (by
      intro a resp h
      injection h with h2
      subst h2
      decide)⟩

/-- Counterexample to C5 as stated: with `requiredCount = 0` the loop performs
0 attempts (not 10) and the allocation succeeds with the empty list, although
every response yields only already-used words. -/
theorem allocation_exhaustion_cex :
    runPuzzle usedSrc ["apple".data] 0 0 = .ok [] ∧
    (allocLoop usedSrc ["apple".data] 0 10 0 [] []).2.2 = 0 ∧
    (∀ t ∈ parseResponse "apple".data,
      (["apple".data] : List Word).contains (jsLower t) = true) :=
  ⟨rfl, rfl, by decide⟩

/-! ### The token pipeline as the specification words it (C7) -/

/-- Spec §4.3 step 3: the first line containing a comma, else the whole
trimmed response. -/
def specFirstCommaLine (resp : Word) : Word :=
  match ((splitOnChar '\n' (wsTrim resp)).filter (fun l => l.contains ',')).head? with
  | some l => l
  | none => wsTrim resp

/-- Spec steps 4–5: split on commas, trim tokens, discard empties, then remove
tokens case-insensitively present in the used set. -/
def specFreshTokens (usedWords : List Word) (resp : Word) : List Word :=
  (((splitOnChar ',' (specFirstCommaLine resp)).map wsTrim).filter
    (fun w => !w.isEmpty)).filter (fun w => !(usedWords.contains (jsLower w)))

/-- Spec step 6: case-insensitive deduplication keeping first occurrences
(tokens compared and kept in lowercase). -/
def specDedupCI (l : List Word) : List Word :=
  l.foldl (fun acc w => if acc.contains (jsLower w) then acc else acc ++ [jsLower w]) []

/-- Spec steps 3–7 combined. -/
def specAcceptedTokens (usedWords : List Word) (requiredCount : Nat) (resp : Word) :
    List Word :=
  (specDedupCI (specFreshTokens usedWords resp)).take requiredCount

theorem find?_eq_head?_filter (p : Word → Bool) (l : List Word) :
    l.find? p = (l.filter p).head? := by
  induction l with
  | nil => rfl
  | cons x xs ih =>
      cases hx : p x
      · rw [show List.find? p (x :: xs) = List.find? p xs by simp [List.find?, hx], ih,
          show List.filter p (x :: xs) = List.filter p xs by simp [List.filter_cons, hx]]
      · rw [show List.find? p (x :: xs) = some x by simp [List.find?, hx],
          show List.filter p (x :: xs) = x :: List.filter p xs by simp [List.filter_cons, hx]]
        rfl

theorem setDedup_foldl (l : List Word) : ∀ (seen acc : List Word),
    (∀ w : Word, seen.contains w = acc.contains w) →
    acc ++ setDedup seen (l.map jsLower) =
      l.foldl (fun acc w => if acc.contains (jsLower w) then acc else acc ++ [jsLower w]) acc := by
  induction l with
  | nil => intro seen acc _; simp [setDedup]
  | cons x xs ih =>
      intro seen acc h
      simp only [List.map_cons, List.foldl_cons, setDedup]
      rw [← h (jsLower x)]
      by_cases hc : seen.contains (jsLower x) = true
      · rw [if_pos hc, if_pos hc]
        exact ih seen acc h
      · rw [if_neg hc, if_neg hc]
        rw [show acc ++ (jsLower x :: setDedup (jsLower x :: seen) (xs.map jsLower)) =
            (acc ++ [jsLower x]) ++ setDedup (jsLower x :: seen) (xs.map jsLower) by simp]
        refine ih (jsLower x :: seen) (acc ++ [jsLower x]) ?_
        intro w
        apply bool_eq_of_iff
        have hiff : w ∈ seen ↔ w ∈ acc := by
          rw [← word_contains_iff, ← word_contains_iff, h w]
        simp only [word_contains_iff, List.mem_cons, List.mem_append,
          List.mem_singleton]
        tauto

theorem specDedupCI_eq (l : List Word) : setDedup [] (l.map jsLower) = specDedupCI l := by
  have := setDedup_foldl l [] [] (fun _ => rfl)
  simpa [specDedupCI] using this

theorem parseResponse_spec (resp : Word) :
    parseResponse resp =
      ((splitOnChar ',' (specFirstCommaLine resp)).map wsTrim).filter
        (fun w => !w.isEmpty) := by
  simp only [parseResponse, specFirstCommaLine]
  rw [find?_eq_head?_filter]
  rcases hh : ((splitOnChar '\n' (wsTrim resp)).filter (fun l => l.contains ',')).head?
    with _ | l
  · exact List.filter_congr fun w _ => by cases w <;> simp
  · exact List.filter_congr fun w _ => by cases w <;> simp

theorem slice_eq_take (l : List Word) (n : Nat) :
    (if l.length > n then l.take n else l) = l.take n := by
  split_ifs with h
  · rfl
  · exact (List.take_of_length_le (by omega)).symm

theorem attemptWords_eq_spec (A : List Word) (req : Nat) (resp : Word) :
    attemptWords A req resp = specAcceptedTokens A req resp := by
  simp only [attemptWords, specAcceptedTokens, specFreshTokens]
  rw [← parseResponse_spec, specDedupCI_eq]
  exact slice_eq_take _ _

theorem allocLoop_step_ok (source : Nat → Except Word Word) (A : List Word)
    (required fuel attempt : Nat) (pws : List Word) (le resp : Word)
    (hsrc : source attempt = .ok resp) (hne : pws.length ≠ required) :
    allocLoop source A required (fuel + 1) attempt pws le =
      allocLoop source A required fuel (attempt + 1) (attemptWords A required resp)
        (if (attemptWords A required resp).length ≠ required then
          diagMsg (attempt + 1) required (attemptWords A required resp).length
        else le) := by
  simp only [allocLoop]
  rw [if_neg hne, hsrc]

/-- C7: the handler computes its accepted tokens by exactly the specification's
pipeline (first comma line / split / trim / drop empties / drop used /
case-insensitive dedupe / truncate), and an attempt ends the loop successfully
iff the resulting count equals `requiredCount` exactly. -/
theorem token_pipeline_spec (A : List Word) (required : Nat) :
    (∀ resp, attemptWords A required resp = specAcceptedTokens A required resp) ∧
    (∀ (source : Nat → Except Word Word) (fuel attempt : Nat) (pws : List Word)
        (le resp : Word), source attempt = .ok resp → pws.length ≠ required →
      ((attemptWords A required resp).length = required →
        allocLoop source A required (fuel + 1) attempt pws le =
          (attemptWords A required resp, le, attempt + 1)) ∧
      ((attemptWords A required resp).length ≠ required →
        allocLoop source A required (fuel + 1) attempt pws le =
          allocLoop source A required fuel (attempt + 1) (attemptWords A required resp)
            (diagMsg (attempt + 1) required (attemptWords A required resp).length))) := by
  refine ⟨fun resp => attemptWords_eq_spec A required resp, ?_⟩
  intro source fuel attempt pws le resp hsrc hne
  constructor
  · intro hlen
    rw [allocLoop_step_ok source A required fuel attempt pws le resp hsrc hne,
      if_neg (by simpa using hlen)]
    exact allocLoop_done source A required fuel (attempt + 1) _ le hlen
  · intro hlen
    rw [allocLoop_step_ok source A required fuel attempt pws le resp hsrc hne,
      if_pos hlen]

/-- Witness for C7: a successful first attempt stops the loop with its words. -/
theorem token_pipeline_spec_witness :
    (usedSrc 0 = .ok "apple".data ∧ ([] : List Word).length ≠ 1 ∧
      (attemptWords [] 1 "apple".data).length = 1) ∧
    allocLoop usedSrc [] 1 (9 + 1) 0 [] [] =
      (attemptWords [] 1 "apple".data, [], 0 + 1) :=
  ⟨⟨rfl, by decide, by decide⟩,
   ((token_pipeline_spec [] 1).2 usedSrc 9 0 [] [] "apple".data rfl (by decide)).1
     (by decide)⟩

/-! ### Batch failure policy (C4) -/

/-- Whether a handler result is the `success: false` shape. -/
def isErr {α β : Type} : Except α β → Bool
  | .error _ => true
  | .ok _ => false

theorem cpLoop_topics_sublist (source : Nat → Except Word Word)
    (trials : Nat → Nat → Trial) (fill : Nat → Int → Int → Fin 26) :
    ∀ (sts : List Word) (i : Nat),
      ((createPuzzlesLoop source trials fill sts i).puzzles.map Prod.snd).Sublist sts := by
  intro sts
  induction sts with
  | nil => intro i; simp [createPuzzlesLoop]
  | cons st sts ih =>
      intro i
      rcases hs : source i with e | resp
      · have hstep : createPuzzlesLoop source trials fill (st :: sts) i =
            ⟨(createPuzzlesLoop source trials fill sts (i + 1)).puzzles,
              (createPuzzlesLoop source trials fill sts (i + 1)).successCount,
              (createPuzzlesLoop source trials fill sts (i + 1)).skipCount + 1⟩ := by
          simp only [createPuzzlesLoop]
          simp only [hs]
        rw [hstep]
        exact (ih (i + 1)).cons st
      · by_cases hlen : 10 ≤ (cpWords resp).length
        · have hstep : createPuzzlesLoop source trials fill (st :: sts) i =
              ⟨(createPuzzle (trials i) (fill i) (cpWords resp), st) ::
                (createPuzzlesLoop source trials fill sts (i + 1)).puzzles,
                (createPuzzlesLoop source trials fill sts (i + 1)).successCount + 1,
                (createPuzzlesLoop source trials fill sts (i + 1)).skipCount⟩ := by
            simp only [createPuzzlesLoop]
            simp only [hs]
            rw [if_pos hlen]
          rw [hstep]
          simpa using (ih (i + 1)).cons₂ st
        · have hstep : createPuzzlesLoop source trials fill (st :: sts) i =
              ⟨(createPuzzlesLoop source trials fill sts (i + 1)).puzzles,
                (createPuzzlesLoop source trials fill sts (i + 1)).successCount,
                (createPuzzlesLoop source trials fill sts (i + 1)).skipCount + 1⟩ := by
            simp only [createPuzzlesLoop]
            simp only [hs]
            rw [if_neg hlen]
          rw [hstep]
          exact (ih (i + 1)).cons st

/-- C4 (amended): a per-topic allocation failure aborts the
`generate-word-list` batch immediately with that topic's error; the
`create-puzzles` orchestrator instead skips failed topics, keeps the
successful puzzles in original topic order, and returns a success result even
when zero topics succeed. -/
theorem batch_failure_policy :
    (∀ (source : Nat → Nat → Except Word Word) (required n i : Nat) (A : List Word)
        (acc : List (List Word)) (wl e : Word),
      runPuzzle (source i) A required i = .error e →
      batchLoop source required (n + 1) i A acc wl = .error e) ∧
    (∀ (source : Nat → Except Word Word) (trials : Nat → Nat → Trial)
        (fill : Nat → Int → Int → Fin 26) (subthemes : List Word),
      subthemes ≠ [] →
      ∃ res, createPuzzlesHandler source trials fill subthemes = some res ∧
        (res.puzzles.map Prod.snd).Sublist subthemes) := by
  constructor
  · intro source required n i A acc wl e h
    simp only [batchLoop]
    rw [h]
  · intro source trials fill subthemes hne
    refine ⟨createPuzzlesLoop source trials fill subthemes 0, ?_, ?_⟩
    · unfold createPuzzlesHandler
      rw [if_neg (by simpa using hne)]
    · exact cpLoop_topics_sublist source trials fill subthemes 0

/-- A batch source whose first topic can never reach 2 fresh words but whose
second topic could. -/
def failSrc : Nat → Nat → Except Word Word :=
  fun i _ => .ok (if i = 0 then "apple".data else "cat, dog".data)

/-- Witness for the amended C4. -/
theorem batch_failure_policy_witness :
    (runPuzzle (failSrc 0) [] 2 0 = .error (failMsg 0 (diagMsg 10 2 1)) ∧
      (["t".data] : List Word) ≠ []) ∧
    (batchLoop failSrc 2 (1 + 1) 0 [] [] [] = .error (failMsg 0 (diagMsg 10 2 1)) ∧
      ∃ res, createPuzzlesHandler (fun _ => .error "x".data) (fun _ => zeroTrials)
          (fun _ => zeroFill) ["t".data] = some res ∧
        (res.puzzles.map Prod.snd).Sublist ["t".data]) :=
  ⟨⟨rfl, by decide⟩,
   ⟨batch_failure_policy.1 failSrc 2 1 0 [] [] [] (failMsg 0 (diagMsg 10 2 1)) rfl,
    batch_failure_policy.2 (fun _ => .error "x".data) (fun _ => zeroTrials)
      (fun _ => zeroFill) ["t".data] (by decide)⟩⟩

/-- Counterexample to C4 as stated: the `generate-word-list` batch aborts on
the first exhausted topic even though the second topic alone would succeed;
and the `create-puzzles` handler returns success with zero successful topics. -/
theorem batch_abort_cex :
    isErr (generateWordList failSrc 2 2) = true ∧
    runPuzzle (failSrc 1) [] 2 1 = .ok ["cat".data, "dog".data] ∧
    Option.map (fun r : CPResult => (r.puzzles.length, r.successCount, r.skipCount))
      (createPuzzlesHandler (fun _ => .error "x".data) (fun _ => zeroTrials)
        (fun _ => zeroFill) ["t".data]) = some (0, 0, 1) :=
  ⟨rfl, rfl, rfl⟩

end WordSearch
